import Mathlib

/-!
# arr.h : static, fixed and dynamic arrays

A shallow embedding of `src/arr.h`.

* `size_t` is an unsigned integer of `w` bits: values are natural numbers below
  `2 ^ w`, and every `size_t` addition and multiplication of the source is written
  with an explicit `% 2 ^ w`. `DARR_SZMAX - x` is the subtraction of natural numbers,
  which is that of `size_t` for every `size_t` value `x`.
* A buffer is a function from offsets to contents (bytes for the dynamic
  array, elements of `T` for `ARR(T)` and `FARR(T, n)`).
* `malloc`, `realloc` and `free` are an `Allocator`: a stream of outcomes for
  the calls still to come and a log of the requests made so far.
-/

namespace ArrH

/-! ## Machine sizes -/

/-- `#define DARR_SZMAX ((size_t)-1)`, that is `SIZE_MAX`, for a `size_t` of `w` bits. -/
def DARR_SZMAX (w : Nat) : Nat := 2 ^ w - 1

/-! ## The allocator -/

/-- One request made to the C allocator. `header` is `malloc(sizeof(*new))` in
`darr_new`; `malloc n` and `realloc n` ask for `n` bytes. -/
inductive Request where
  | header : Request
  | malloc (n : Nat) : Request
  | realloc (n : Nat) : Request
  | free : Request
  deriving DecidableEq, Repr

/-- The allocator. `next k` is the outcome of the `k`-th allocation call still to
come: `none` is failure (a null pointer), `some fill` is success, `fill` being the
indeterminate contents of the bytes the call hands out fresh. `log` lists the requests
made so far, the most recent first. -/
structure Allocator where
  next : Nat → Option (Nat → UInt8)
  log : List Request

/-- An allocation call (`malloc` or `realloc`): takes the next outcome and logs the request. -/
def Allocator.call (al : Allocator) (r : Request) : Option (Nat → UInt8) × Allocator :=
  (al.next 0, ⟨fun k => al.next (k + 1), r :: al.log⟩)

/-- A call of `free`: it has no outcome; it is logged. -/
def Allocator.release (al : Allocator) : Allocator :=
  ⟨al.next, Request.free :: al.log⟩

/-! ## The three array types -/

/-- The fields shared by `ARR(T)`, `FARR(T, elnum)` and `DARR(T)`:
`struct { size_t len; size_t sz; T *arr; }`. `sz` is the capacity in bytes, `arr` the
contents of the buffer by index. -/
structure ARR (T : Type) where
  len : Nat
  sz : Nat
  arr : Nat → T

/-- The dynamic array as `darr_new`, `darr_grow` and `darr_push` see it, `DARR(void)`:
the buffer is addressed by byte offset. -/
abbrev DARR := ARR UInt8

/-- `ARR_NEW(T, elnum)`: `.len = 0, .sz = (elnum) * sizeof(T), .arr = (T [(elnum)]) {0}`;
`tsz` is `sizeof(T)`. -/
def ARR_NEW (w : Nat) {T : Type} [Inhabited T] (tsz elnum : Nat) : ARR T :=
  ⟨0, (elnum * tsz) % 2 ^ w, fun _ => default⟩

/-- `FARR_NEW(T, elnum)`: `.len = 0, .sz = (elnum) * sizeof(T), .arr = {0}`. -/
def FARR_NEW (w : Nat) {T : Type} [Inhabited T] (tsz elnum : Nat) : ARR T :=
  ⟨0, (elnum * tsz) % 2 ^ w, fun _ => default⟩

/-- `darr_new(elnum, elsz)`: the new array, or `none` for `NULL`, and the allocator after. -/
def darr_new (w : Nat) (elnum elsz : Nat) (al : Allocator) : Option DARR × Allocator :=
  if elnum ≠ 0 then
    if elsz ≠ 0 then
      if DARR_SZMAX w / elsz ≥ elnum then
        match al.call Request.header with
        | (some _, al1) =>
          match al1.call (Request.malloc ((elnum * elsz) % 2 ^ w)) with
          | (some fill, al2) => (some ⟨0, (elnum * elsz) % 2 ^ w, fill⟩, al2)
          | (none, al2) => (none, al2.release)
        | (none, al1) => (none, al1)
      else (none, al)
    else (none, al)
  else (none, al)

/-- `ARR_FULL(T, name)`: `(name).len * sizeof(T) == (name).sz`. -/
def ARR_FULL (w : Nat) {T : Type} (tsz : Nat) (a : ARR T) : Bool :=
  (a.len * tsz) % 2 ^ w == a.sz

/-- `ARR_AVAILIBLE(T, name)`: `((name).sz - (name).len * sizeof(T)) / sizeof(T)`, the
subtraction being that of `size_t`. -/
def ARR_AVAILIBLE (w : Nat) {T : Type} (tsz : Nat) (a : ARR T) : Nat :=
  ((a.sz + 2 ^ w - (a.len * tsz) % 2 ^ w) % 2 ^ w) / tsz

/-- `ARR_PUSH(T, name, ...)`: `if(!ARR_FULL(T, name)) (name).arr[(name).len++] = (T){...};`. -/
def ARR_PUSH (w : Nat) {T : Type} (tsz : Nat) (a : ARR T) (v : T) : ARR T :=
  if !ARR_FULL w tsz a then
    ⟨(a.len + 1) % 2 ^ w, a.sz, fun i => if i = a.len then v else a.arr i⟩
  else a

/-- `darr_max(x, y)`: `x > y ? x : y`. -/
def darr_max (x y : Nat) : Nat := if x > y then x else y

/-- `darr_grow(foo)`: the returned `bool`, the array after, the allocator after.
A successful `realloc` keeps the `old.sz` bytes of the old buffer; the bytes after
them are whatever the allocator hands out. -/
def darr_grow (w : Nat) (foo : Option DARR) (al : Allocator) :
    Bool × Option DARR × Allocator :=
  match foo with
  | some old =>
    let max := darr_max (old.sz / 2) 1
    if DARR_SZMAX w - old.sz ≥ max then
      match al.call (Request.realloc ((old.sz + max) % 2 ^ w)) with
      | (some fill, al1) =>
        (true,
          some ⟨old.len, (old.sz + max) % 2 ^ w,
            fun j => if j < old.sz then old.arr j else fill j⟩,
          al1)
      | (none, al1) => (false, some old, al1)
    else (false, some old, al)
  | none => (false, none, al)

/-- The loop of `darr_push`:
`while(effsz + elsz > bar->sz) { if(!darr_grow(bar)) return false; }`.
The `Bool` is `false` when the loop left through `return false`, `true` when its
condition became false. `none` is for a loop still running after `fuel` tests of the
condition. The pointer `bar` is not null and `darr_grow` works on the array it points
to: `foo1.getD bar` is that array after the call. -/
def darr_push_loop (w : Nat) (effsz elsz : Nat) :
    Nat → DARR → Allocator → Option (Bool × DARR × Allocator)
  | 0, _, _ => none
  | fuel + 1, bar, al =>
    if (effsz + elsz) % 2 ^ w > bar.sz then
      match darr_grow w (some bar) al with
      | (true, foo1, al1) => darr_push_loop w effsz elsz fuel (foo1.getD bar) al1
      | (false, foo1, al1) => some (false, foo1.getD bar, al1)
    else some (true, bar, al)

/-- `darr_push(foo, elsz, elem)`: the returned `bool`, the array after, the allocator after;
`elem j` is byte `j` of `*elem`. The loop is given `DARR_SZMAX - bar->sz + 1` tests of
its condition (each successful `darr_grow` makes `sz` larger and keeps it at most
`DARR_SZMAX`); `none` would be a loop that needs more. -/
def darr_push (w : Nat) (foo : Option DARR) (elsz : Nat) (elem : Nat → UInt8)
    (al : Allocator) : Option (Bool × Option DARR × Allocator) :=
  match foo with
  | some bar =>
    let effsz := (bar.len * elsz) % 2 ^ w
    if DARR_SZMAX w - effsz ≥ elsz then
      match darr_push_loop w effsz elsz (DARR_SZMAX w - bar.sz + 1) bar al with
      | some (true, bar1, al1) =>
        some (true,
          some ⟨(bar1.len + 1) % 2 ^ w, bar1.sz,
            fun j => if effsz ≤ j ∧ j < effsz + elsz then elem (j - effsz) else bar1.arr j⟩,
          al1)
      | some (false, bar1, al1) => some (false, some bar1, al1)
      | none => none
    else some (false, some bar, al)
  | none => some (false, none, al)

/-- `ARR_POP(name)`: `if((name).len) (name).len--;`. -/
def ARR_POP {T : Type} (a : ARR T) : ARR T :=
  if a.len ≠ 0 then ⟨a.len - 1, a.sz, a.arr⟩ else a

/-- `ARR_CLEAR(name)`: `(name).len = 0;`. -/
def ARR_CLEAR {T : Type} (a : ARR T) : ARR T :=
  ⟨0, a.sz, a.arr⟩

/-- `#define FARR_FULL ARR_FULL`. -/
abbrev FARR_FULL := @ARR_FULL
/-- `#define FARR_AVAILIBLE ARR_AVAILIBLE`. -/
abbrev FARR_AVAILIBLE := @ARR_AVAILIBLE
/-- `#define FARR_PUSH ARR_PUSH`. -/
abbrev FARR_PUSH := @ARR_PUSH
/-- `#define FARR_POP ARR_POP`. -/
abbrev FARR_POP := @ARR_POP
/-- `#define FARR_CLEAR ARR_CLEAR`. -/
abbrev FARR_CLEAR := @ARR_CLEAR
/-- `#define DARR_FULL(T, name) ARR_FULL(T, *name)`. -/
def DARR_FULL (w : Nat) (tsz : Nat) (d : DARR) : Bool := ARR_FULL w tsz d
/-- `#define DARR_AVAILIBLE(T, name) ARR_AVAILIBLE(T, *name)`. -/
def DARR_AVAILIBLE (w : Nat) (tsz : Nat) (d : DARR) : Nat := ARR_AVAILIBLE w tsz d
/-- `#define DARR_POP(name) ARR_POP(*name)`. -/
def DARR_POP (d : DARR) : DARR := ARR_POP d
/-- `#define DARR_CLEAR(name) ARR_CLEAR(*name)`. -/
def DARR_CLEAR (d : DARR) : DARR := ARR_CLEAR d

/-! ## Sequences of operations -/

/-- The capacity one successful growth step gives from capacity `c`, in exact
arithmetic: `c + max(c/2, 1)`. -/
def grow_cap (c : Nat) : Nat := c + max (c / 2) 1

/-- Successive calls `darr_push(foo, elsz, v)` for the `v` of a list, in order:
the list of the returned `bool`s, the array and the allocator after the last call. -/
def darr_push_all (w elsz : Nat) :
    List (Nat → UInt8) → Option DARR → Allocator → Option (List Bool × Option DARR × Allocator)
  | [], foo, al => some ([], foo, al)
  | v :: vs, foo, al =>
    match darr_push w foo elsz v al with
    | some (b, foo1, al1) =>
      match darr_push_all w elsz vs foo1 al1 with
      | some (bs, foo2, al2) => some (b :: bs, foo2, al2)
      | none => none
    | none => none

/-- The states a Static or Fixed array of elements of `tsz` bytes can be in: made by
`ARR_NEW` or `FARR_NEW` (the array type `T [elnum]` exists, so `elnum * sizeof(T)` is
at most `SIZE_MAX`), then any number of `ARR_PUSH`, `ARR_POP` and `ARR_CLEAR`. -/
inductive ArrReach (w tsz : Nat) {T : Type} [Inhabited T] : ARR T → Prop where
  | anew (elnum : Nat) (h : elnum * tsz ≤ DARR_SZMAX w) : ArrReach w tsz (ARR_NEW w tsz elnum)
  | fnew (elnum : Nat) (h : elnum * tsz ≤ DARR_SZMAX w) : ArrReach w tsz (FARR_NEW w tsz elnum)
  | push (a : ARR T) (v : T) : ArrReach w tsz a → ArrReach w tsz (ARR_PUSH w tsz a v)
  | pop (a : ARR T) : ArrReach w tsz a → ArrReach w tsz (ARR_POP a)
  | clear (a : ARR T) : ArrReach w tsz a → ArrReach w tsz (ARR_CLEAR a)

/-- The states a Dynamic array of elements of `elsz` bytes can be in: made by a
successful `darr_new`, then any number of `darr_push` (returning `true` or `false`),
`darr_grow` (returning `true` or `false`), `DARR_POP` and `DARR_CLEAR`, the allocator
behaving in any way at each call. -/
inductive DarrReach (w elsz : Nat) : DARR → Prop where
  | new (elnum : Nat) (al al1 : Allocator) (d : DARR) :
      darr_new w elnum elsz al = (some d, al1) → DarrReach w elsz d
  | push (d d1 : DARR) (elem : Nat → UInt8) (al al1 : Allocator) (b : Bool) :
      DarrReach w elsz d → darr_push w (some d) elsz elem al = some (b, some d1, al1) →
      DarrReach w elsz d1
  | grow (d d1 : DARR) (al al1 : Allocator) (b : Bool) :
      DarrReach w elsz d → darr_grow w (some d) al = (b, some d1, al1) →
      DarrReach w elsz d1
  | pop (d : DARR) : DarrReach w elsz d → DarrReach w elsz (DARR_POP d)
  | clear (d : DARR) : DarrReach w elsz d → DarrReach w elsz (DARR_CLEAR d)

/-- The array a successful `darr_grow` leaves: capacity `grow_cap old.sz`, the old bytes
kept, the new ones as handed out by the allocator. -/
def grown (old : DARR) (fill : Nat → UInt8) : DARR :=
  ⟨old.len, grow_cap old.sz, fun j => if j < old.sz then old.arr j else fill j⟩

/-- The allocator after one call with request `r`. -/
def Allocator.after (al : Allocator) (r : Request) : Allocator := (al.call r).2

/-- The array a call of `darr_push` leaves, `none` when there is none. -/
def pushed (r : Option (Bool × Option DARR × Allocator)) : Option DARR :=
  r.bind (fun x => x.2.1)

/-- The allocator a call of `darr_push` leaves; the one given when the call did not return. -/
def pushedAlloc (al : Allocator) (r : Option (Bool × Option DARR × Allocator)) : Allocator :=
  (r.map (fun x => x.2.2)).getD al

/-- Every call to the allocator succeeds. -/
def AllOk (al : Allocator) : Prop := ∀ k, (al.next k).isSome

/-- One operation on a Dynamic array: a call of `darr_push` (any element size, any
element, returning `true` or `false`), a call of `darr_grow` (returning `true` or
`false`), `DARR_POP` or `DARR_CLEAR`, the allocator behaving in any way. -/
inductive DarrStep (w : Nat) : DARR → DARR → Prop where
  | push (d d1 : DARR) (elsz : Nat) (elem : Nat → UInt8) (al al1 : Allocator) (b : Bool) :
      darr_push w (some d) elsz elem al = some (b, some d1, al1) → DarrStep w d d1
  | grow (d d1 : DARR) (al al1 : Allocator) (b : Bool) :
      darr_grow w (some d) al = (b, some d1, al1) → DarrStep w d d1
  | pop (d : DARR) : DarrStep w d (DARR_POP d)
  | clear (d : DARR) : DarrStep w d (DARR_CLEAR d)

/-- The number of calls of `darr_grow` the loop of `darr_push` makes (the number of
times its body runs), counted along `darr_push_loop`. -/
def darr_push_iters (w : Nat) (effsz elsz : Nat) : Nat → DARR → Allocator → Nat
  | 0, _, _ => 0
  | fuel + 1, bar, al =>
    if (effsz + elsz) % 2 ^ w > bar.sz then
      match darr_grow w (some bar) al with
      | (true, foo1, al1) => darr_push_iters w effsz elsz fuel (foo1.getD bar) al1 + 1
      | (false, _, _) => 1
    else 0

/-- The number of calls of `darr_grow` a call of `darr_push` makes. -/
def darr_push_grows (w : Nat) (foo : Option DARR) (elsz : Nat) (al : Allocator) : Nat :=
  match foo with
  | some bar =>
    let effsz := (bar.len * elsz) % 2 ^ w
    if DARR_SZMAX w - effsz ≥ elsz then
      darr_push_iters w effsz elsz (DARR_SZMAX w - bar.sz + 1) bar al
    else 0
  | none => 0

/-- The requests `k` successful growth steps from capacity `c` make, the most recent
first: `realloc` for `g^k(c)`, ..., `g^2(c)`, `g(c)` bytes, with `g = grow_cap`. -/
def grow_requests (c k : Nat) : List Request :=
  (List.range k).reverse.map (fun i => Request.realloc (grow_cap^[i + 1] c))

/-! ## Allocators and values for concrete runs -/

/-- An allocator whose every call succeeds, handing out zero bytes. -/
def allocOk : Allocator := ⟨fun _ => some (fun _ => 0), []⟩

/-- An allocator whose first call succeeds and whose every later call fails. -/
def allocOnce : Allocator := ⟨fun k => if k = 0 then some (fun _ => 0) else none, []⟩

/-- An allocator whose every call fails. -/
def allocFail : Allocator := ⟨fun _ => none, []⟩

/-! ## Arithmetic of `size_t` -/

theorem pow_eq_szmax_succ (w : Nat) : 2 ^ w = DARR_SZMAX w + 1 := by
  have h : 0 < 2 ^ w := Nat.two_pow_pos w
  unfold DARR_SZMAX
  omega

theorem mod_of_le_szmax {w x : Nat} (h : x ≤ DARR_SZMAX w) : x % 2 ^ w = x := by
  apply Nat.mod_eq_of_lt
  rw [pow_eq_szmax_succ]
  omega

theorem darr_max_eq (x y : Nat) : darr_max x y = max x y := by
  unfold darr_max
  split <;> omega

/-- The guard of `darr_new`, `((size_t)-1) / elsz >= elnum`, says that the product fits. -/
theorem guard_iff (w elnum elsz : Nat) (h : elsz ≠ 0) :
    DARR_SZMAX w / elsz ≥ elnum ↔ elnum * elsz ≤ DARR_SZMAX w :=
  Nat.le_div_iff_mul_le (Nat.pos_of_ne_zero h)

/-! ## `darr_grow` -/

/-- What `darr_grow` does on a non-null array, by cases. -/
theorem darr_grow_some (w : Nat) (old : DARR) (al : Allocator) :
    darr_grow w (some old) al =
      if DARR_SZMAX w - old.sz ≥ max (old.sz / 2) 1 then
        match al.next 0 with
        | some fill =>
          (true,
            some ⟨old.len, old.sz + max (old.sz / 2) 1,
              fun j => if j < old.sz then old.arr j else fill j⟩,
            ⟨fun k => al.next (k + 1),
              Request.realloc (old.sz + max (old.sz / 2) 1) :: al.log⟩)
        | none =>
          (false, some old,
            ⟨fun k => al.next (k + 1),
              Request.realloc (old.sz + max (old.sz / 2) 1) :: al.log⟩)
      else (false, some old, al) := by
  simp only [darr_grow, darr_max_eq, Allocator.call]
  by_cases hg : DARR_SZMAX w - old.sz ≥ max (old.sz / 2) 1
  · have hm : (old.sz + max (old.sz / 2) 1) % 2 ^ w = old.sz + max (old.sz / 2) 1 :=
      mod_of_le_szmax (by omega)
    rw [if_pos hg, if_pos hg, hm]
    cases al.next 0 <;> rfl
  · rw [if_neg hg, if_neg hg]


/-- C2: whenever `darr_grow` returns `true` on an array of capacity `C`, the new
capacity is `C + max(C/2, 1)` as an exact integer, the length is unchanged, and the one
request made to the allocator is `realloc` for exactly `C + max(C/2, 1)` bytes. -/
theorem darr_grow_true_capacity (w : Nat) (old : DARR) (al : Allocator)
    (foo1 : Option DARR) (al1 : Allocator)
    (h : darr_grow w (some old) al = (true, foo1, al1)) :
    ∃ new : DARR, foo1 = some new ∧
      new.sz = old.sz + max (old.sz / 2) 1 ∧
      new.len = old.len ∧
      al1.log = Request.realloc (old.sz + max (old.sz / 2) 1) :: al.log := by
  rw [darr_grow_some] at h
  split at h
  · split at h
    · simp only [Prod.mk.injEq, true_and] at h
      obtain ⟨h1, h2⟩ := h
      subst h1 h2
      exact ⟨_, rfl, rfl, rfl, rfl⟩
    · simp at h
  · simp at h

theorem darr_grow_true_capacity_witness :
    ∃ new : DARR, (darr_grow 64 (some ⟨1, 8, fun _ => 0⟩) allocOk).2.1 = some new ∧
      new.sz = 8 + max (8 / 2) 1 ∧ new.len = 1 ∧
      (darr_grow 64 (some ⟨1, 8, fun _ => 0⟩) allocOk).2.2.log
        = Request.realloc (8 + max (8 / 2) 1) :: allocOk.log :=
  darr_grow_true_capacity 64 ⟨1, 8, fun _ => 0⟩ allocOk _ _ rfl

/-- C3: on an array of capacity `C`, (1) if `SIZE_MAX - C < max(C/2, 1)` then `darr_grow`
returns `false`, the array (length, capacity, buffer) and the allocator (so also its log:
no `realloc`) being what they were; (2) if the check passes and `realloc` fails, it
returns `false` with the array what it was; (3) if the check passes and `realloc`
succeeds, it returns `true`. -/
theorem darr_grow_false_cases (w : Nat) (old : DARR) (al : Allocator) :
    (DARR_SZMAX w - old.sz < max (old.sz / 2) 1 →
      darr_grow w (some old) al = (false, some old, al)) ∧
    (DARR_SZMAX w - old.sz ≥ max (old.sz / 2) 1 → al.next 0 = none →
      (darr_grow w (some old) al).1 = false ∧
      (darr_grow w (some old) al).2.1 = some old) ∧
    (DARR_SZMAX w - old.sz ≥ max (old.sz / 2) 1 → (al.next 0).isSome →
      (darr_grow w (some old) al).1 = true) := by
  refine ⟨fun h => ?_, fun h hn => ?_, fun h hs => ?_⟩
  · rw [darr_grow_some, if_neg (by omega)]
  · rw [darr_grow_some, if_pos h, hn]
    exact ⟨rfl, rfl⟩
  · rw [darr_grow_some, if_pos h]
    obtain ⟨fill, hf⟩ := Option.isSome_iff_exists.mp hs
    rw [hf]

theorem darr_grow_false_cases_witness :
    darr_grow 64 (some ⟨0, 2 ^ 64 - 1, fun _ => 0⟩) allocOk
        = (false, some ⟨0, 2 ^ 64 - 1, fun _ => 0⟩, allocOk) ∧
      ((darr_grow 64 (some ⟨1, 8, fun _ => 0⟩) allocFail).1 = false ∧
        (darr_grow 64 (some ⟨1, 8, fun _ => 0⟩) allocFail).2.1 = some ⟨1, 8, fun _ => 0⟩) ∧
      (darr_grow 64 (some ⟨1, 8, fun _ => 0⟩) allocOk).1 = true :=
  ⟨(darr_grow_false_cases 64 ⟨0, 2 ^ 64 - 1, fun _ => 0⟩ allocOk).1 (by decide),
    (darr_grow_false_cases 64 ⟨1, 8, fun _ => 0⟩ allocFail).2.1 (by decide) rfl,
    (darr_grow_false_cases 64 ⟨1, 8, fun _ => 0⟩ allocOk).2.2 (by decide) rfl⟩

/-! ## `darr_new` -/

/-- A call of `darr_new` whose guard passes and whose two allocations succeed. -/
theorem darr_new_eval (w elnum elsz : Nat) (al : Allocator) (hdr fill : Nat → UInt8)
    (hnum : elnum ≠ 0) (hsz : elsz ≠ 0) (hfit : elnum * elsz ≤ DARR_SZMAX w)
    (h0 : al.next 0 = some hdr) (h1 : al.next 1 = some fill) :
    darr_new w elnum elsz al =
      (some ⟨0, elnum * elsz, fill⟩,
        (al.after Request.header).after (Request.malloc (elnum * elsz))) := by
  have hg : DARR_SZMAX w / elsz ≥ elnum := (guard_iff w elnum elsz hsz).mpr hfit
  simp [darr_new, hnum, hsz, hg, Allocator.call, Allocator.after, h0, h1,
    mod_of_le_szmax hfit]

/-- C7: for `elnum` and `elsz` not zero with `elnum * elsz` at most `SIZE_MAX`, when
both allocations succeed `darr_new` returns an array of length `0` and capacity the exact
product `elnum * elsz`, and its last request to the allocator is `malloc` for exactly
`elnum * elsz` bytes, after the one for the header. -/
theorem darr_new_success (w elnum elsz : Nat) (al : Allocator) (hdr fill : Nat → UInt8)
    (hnum : elnum ≠ 0) (hsz : elsz ≠ 0) (hfit : elnum * elsz ≤ DARR_SZMAX w)
    (h0 : al.next 0 = some hdr) (h1 : al.next 1 = some fill) :
    (darr_new w elnum elsz al).1 = some ⟨0, elnum * elsz, fill⟩ ∧
      (darr_new w elnum elsz al).2.log
        = Request.malloc (elnum * elsz) :: Request.header :: al.log := by
  rw [darr_new_eval w elnum elsz al hdr fill hnum hsz hfit h0 h1]
  exact ⟨rfl, rfl⟩

theorem darr_new_success_witness :
    (darr_new 64 3 8 allocOk).1 = some ⟨0, 3 * 8, fun _ => 0⟩ ∧
      (darr_new 64 3 8 allocOk).2.log
        = Request.malloc (3 * 8) :: Request.header :: allocOk.log :=
  darr_new_success 64 3 8 allocOk (fun _ => 0) (fun _ => 0) (by decide) (by decide)
    (by decide) rfl rfl

/-- C8: (1) if `elnum` is zero, or `elsz` is zero, or the exact product `elnum * elsz`
exceeds `SIZE_MAX`, then `darr_new` returns `NULL` and the allocator is what it was (no
request at all); (2) for `elsz` not zero, `darr_new` with `elnum` the `size_t` value of
`SIZE_MAX / elsz + 1` returns `NULL`; (3) for `elsz` not zero the guard
`SIZE_MAX / elsz >= elnum` holds exactly when `elnum * elsz <= SIZE_MAX`. -/
theorem darr_new_rejects (w elnum elsz : Nat) (al : Allocator) :
    ((elnum = 0 ∨ elsz = 0 ∨ elnum * elsz > DARR_SZMAX w) →
      darr_new w elnum elsz al = (none, al)) ∧
    (elsz ≠ 0 →
      darr_new w ((DARR_SZMAX w / elsz + 1) % 2 ^ w) elsz al = (none, al)) ∧
    (elsz ≠ 0 → (DARR_SZMAX w / elsz ≥ elnum ↔ elnum * elsz ≤ DARR_SZMAX w)) := by
  have key : ∀ n : Nat, (n = 0 ∨ elsz = 0 ∨ n * elsz > DARR_SZMAX w) →
      darr_new w n elsz al = (none, al) := by
    intro n h
    unfold darr_new
    by_cases hn : n = 0
    · rw [if_neg (by simpa using hn)]
    · by_cases hs : elsz = 0
      · rw [if_pos hn, if_neg (by simpa using hs)]
      · have hbig : n * elsz > DARR_SZMAX w := by
          rcases h with h | h | h
          · exact absurd h hn
          · exact absurd h hs
          · exact h
        have hg : ¬ DARR_SZMAX w / elsz ≥ n := by
          rw [guard_iff w n elsz hs]
          omega
        rw [if_pos hn, if_pos hs, if_neg hg]
  refine ⟨key elnum, fun hs => ?_, guard_iff w elnum elsz⟩
  apply key
  by_cases hw : DARR_SZMAX w / elsz + 1 ≤ DARR_SZMAX w
  · right; right
    rw [mod_of_le_szmax hw]
    exact (Nat.div_lt_iff_lt_mul (Nat.pos_of_ne_zero hs)).mp (Nat.lt_succ_self _)
  · left
    have hq : DARR_SZMAX w / elsz ≤ DARR_SZMAX w := Nat.div_le_self _ _
    have he : DARR_SZMAX w / elsz + 1 = 2 ^ w := by
      rw [pow_eq_szmax_succ]
      omega
    rw [he, Nat.mod_self]

theorem darr_new_rejects_witness :
    darr_new 64 (2 ^ 62) 8 allocOk = (none, allocOk) :=
  (darr_new_rejects 64 (2 ^ 62) 8 allocOk).1 (by decide)

/-! ## The loop of `darr_push` -/

/-- One turn of the loop of `darr_push`, by cases. -/
theorem darr_push_loop_succ (w effsz elsz fuel : Nat) (bar : DARR) (al : Allocator) :
    darr_push_loop w effsz elsz (fuel + 1) bar al =
      if (effsz + elsz) % 2 ^ w > bar.sz then
        if DARR_SZMAX w - bar.sz ≥ max (bar.sz / 2) 1 then
          match al.next 0 with
          | some fill =>
            darr_push_loop w effsz elsz fuel (grown bar fill)
              (al.after (Request.realloc (grow_cap bar.sz)))
          | none => some (false, bar, al.after (Request.realloc (grow_cap bar.sz)))
        else some (false, bar, al)
      else some (true, bar, al) := by
  rw [darr_push_loop]
  by_cases hc : (effsz + elsz) % 2 ^ w > bar.sz
  · rw [if_pos hc, if_pos hc, darr_grow_some]
    by_cases hg : DARR_SZMAX w - bar.sz ≥ max (bar.sz / 2) 1
    · rw [if_pos hg, if_pos hg]
      cases al.next 0 <;> rfl
    · rw [if_neg hg, if_neg hg]
      rfl
  · rw [if_neg hc, if_neg hc]

/-- What the loop of `darr_push` leaves, however it ends: the length and the bytes of
the old buffer are kept, the capacity has not shrunk and is still a `size_t`; when the
loop ends normally there is room for `effsz + elsz` bytes. -/
theorem darr_push_loop_spec (w effsz elsz : Nat) :
    ∀ (fuel : Nat) (bar : DARR) (al : Allocator) (b : Bool) (bar1 : DARR) (al1 : Allocator),
      darr_push_loop w effsz elsz fuel bar al = some (b, bar1, al1) →
      bar1.len = bar.len ∧ bar.sz ≤ bar1.sz ∧
      (∀ j, j < bar.sz → bar1.arr j = bar.arr j) ∧
      (b = true → (effsz + elsz) % 2 ^ w ≤ bar1.sz) ∧
      (bar.sz ≤ DARR_SZMAX w → bar1.sz ≤ DARR_SZMAX w) := by
  intro fuel
  induction fuel with
  | zero =>
    intro bar al b bar1 al1 h
    simp [darr_push_loop] at h
  | succ fuel ih =>
    intro bar al b bar1 al1 h
    rw [darr_push_loop_succ] at h
    split at h
    · split at h
      · rename_i hg
        split at h
        · rename_i fill hf
          obtain ⟨h1, h2, h3, h4, h5⟩ := ih _ _ _ _ _ h
          have hs : (grown bar fill).sz = bar.sz + max (bar.sz / 2) 1 := rfl
          refine ⟨h1, by omega, fun j hj => ?_, h4, fun _ => h5 (by omega)⟩
          rw [h3 j (by omega)]
          simp [grown, hj]
        · simp only [Option.some.injEq, Prod.mk.injEq] at h
          obtain ⟨hb, hd, _⟩ := h
          subst hb hd
          exact ⟨rfl, le_refl _, fun _ _ => rfl, by simp, id⟩
      · simp only [Option.some.injEq, Prod.mk.injEq] at h
        obtain ⟨hb, hd, _⟩ := h
        subst hb hd
        exact ⟨rfl, le_refl _, fun _ _ => rfl, by simp, id⟩
    · rename_i hc
      simp only [Option.some.injEq, Prod.mk.injEq] at h
      obtain ⟨hb, hd, _⟩ := h
      subst hb hd
      exact ⟨rfl, le_refl _, fun _ _ => rfl, fun _ => by omega, id⟩

/-- The loop of `darr_push` ends within `DARR_SZMAX - sz + 1` tests of its condition. -/
theorem darr_push_loop_total (w effsz elsz : Nat) :
    ∀ (fuel : Nat) (bar : DARR) (al : Allocator),
      DARR_SZMAX w - bar.sz + 1 ≤ fuel →
      (darr_push_loop w effsz elsz fuel bar al).isSome := by
  intro fuel
  induction fuel with
  | zero => intro bar al h; omega
  | succ fuel ih =>
    intro bar al h
    rw [darr_push_loop_succ]
    split
    · split
      · rename_i hg
        split
        · rename_i fill hf
          apply ih
          have hs : (grown bar fill).sz = bar.sz + max (bar.sz / 2) 1 := rfl
          omega
        · rfl
      · rfl
    · rfl

/-- The function `darr_push` always returns. -/
theorem darr_push_total (w : Nat) (foo : Option DARR) (elsz : Nat) (elem : Nat → UInt8)
    (al : Allocator) : (darr_push w foo elsz elem al).isSome := by
  unfold darr_push
  cases foo with
  | none => rfl
  | some bar =>
    simp only
    split
    · have ht := darr_push_loop_total w ((bar.len * elsz) % 2 ^ w) elsz
        (DARR_SZMAX w - bar.sz + 1) bar al (le_refl _)
      obtain ⟨r, hr⟩ := Option.isSome_iff_exists.mp ht
      rw [hr]
      obtain ⟨b, bar1, al1⟩ := r
      cases b <;> rfl
    · rfl

/-! ## `darr_push` -/

/-- What a call of `darr_push` on a non-null array returns, in terms of what its loop
returns: `false` and the array as the loop left it, or `true` and that array with the
element written at `effsz` and the length incremented. -/
theorem darr_push_some (w : Nat) (bar : DARR) (elsz : Nat) (elem : Nat → UInt8)
    (al : Allocator) (b : Bool) (foo1 : Option DARR) (al1 : Allocator)
    (h : darr_push w (some bar) elsz elem al = some (b, foo1, al1)) :
    (b = false ∧ foo1 = some bar ∧ ¬ DARR_SZMAX w - (bar.len * elsz) % 2 ^ w ≥ elsz) ∨
    (DARR_SZMAX w - (bar.len * elsz) % 2 ^ w ≥ elsz ∧
      ∃ bar1 : DARR,
        darr_push_loop w ((bar.len * elsz) % 2 ^ w) elsz (DARR_SZMAX w - bar.sz + 1) bar al
          = some (b, bar1, al1) ∧
        (b = false → foo1 = some bar1) ∧
        (b = true → foo1 = some ⟨(bar1.len + 1) % 2 ^ w, bar1.sz,
          fun j => if (bar.len * elsz) % 2 ^ w ≤ j ∧ j < (bar.len * elsz) % 2 ^ w + elsz
            then elem (j - (bar.len * elsz) % 2 ^ w) else bar1.arr j⟩)) := by
  unfold darr_push at h
  simp only at h
  split at h
  · rename_i hg
    right
    refine ⟨hg, ?_⟩
    split at h
    · rename_i bar1 al2 hl
      simp only [Option.some.injEq, Prod.mk.injEq] at h
      obtain ⟨hb, hf, ha⟩ := h
      subst hb ha
      exact ⟨bar1, hl, by simp, fun _ => hf.symm⟩
    · rename_i bar1 al2 hl
      simp only [Option.some.injEq, Prod.mk.injEq] at h
      obtain ⟨hb, hf, ha⟩ := h
      subst hb ha
      exact ⟨bar1, hl, fun _ => hf.symm, by simp⟩
    · simp at h
  · rename_i hg
    left
    simp only [Option.some.injEq, Prod.mk.injEq] at h
    exact ⟨h.1.symm, h.2.1.symm, hg⟩

/-- C5 (amended): if `darr_push` returns `false`, the length is what it was, every byte
of the buffer as it was before the call is what it was, and the capacity is at least what
it was. -/
theorem darr_push_false_keeps (w : Nat) (bar : DARR) (elsz : Nat) (elem : Nat → UInt8)
    (al : Allocator) (foo1 : Option DARR) (al1 : Allocator)
    (h : darr_push w (some bar) elsz elem al = some (false, foo1, al1)) :
    ∃ new : DARR, foo1 = some new ∧ new.len = bar.len ∧ bar.sz ≤ new.sz ∧
      (∀ j, j < bar.sz → new.arr j = bar.arr j) := by
  rcases darr_push_some w bar elsz elem al false foo1 al1 h with ⟨_, hf, _⟩ | ⟨_, bar1, hl, hf, _⟩
  · exact ⟨bar, hf, rfl, le_refl _, fun _ _ => rfl⟩
  · obtain ⟨h1, h2, h3, _, _⟩ := darr_push_loop_spec w _ _ _ _ _ _ _ _ hl
    exact ⟨bar1, hf rfl, h1, h2, h3⟩

theorem darr_push_false_keeps_witness :
    ∃ new : DARR,
      pushed (darr_push 64 (some ⟨1, 8, fun _ => 0⟩) 8 (fun _ => 7) allocOnce) = some new ∧
      new.len = 1 ∧ 8 ≤ new.sz ∧ (∀ j, j < 8 → new.arr j = 0) :=
  darr_push_false_keeps 64 ⟨1, 8, fun _ => 0⟩ 8 (fun _ => 7) allocOnce _
    (pushedAlloc allocOnce (darr_push 64 (some ⟨1, 8, fun _ => 0⟩) 8 (fun _ => 7) allocOnce))
    rfl

/-- C5 as stated fails when a growth step succeeds and a later one fails: with capacity
`8`, length `1` and an element of `8` bytes, the first `realloc` succeeding and the second
failing, `darr_push` returns `false` and leaves the capacity at `12`. -/
theorem darr_push_false_keeps_counterexample :
    ∃ (new : DARR) (al1 : Allocator),
      darr_push 64 (some ⟨1, 8, fun _ => 0⟩) 8 (fun _ => 7) allocOnce
        = some (false, some new, al1) ∧
      new.sz = 12 ∧ new.sz ≠ (⟨1, 8, fun _ => 0⟩ : DARR).sz :=
  ⟨_, _, rfl, by decide, by decide⟩

/-- C6, the code at a failing input: with a `size_t` of 64 bits, length `2 ^ 32` and an
element size of `2 ^ 32` bytes, the exact `L * elsz + elsz` exceeds `SIZE_MAX`, the
product `len * elsz` wraps to `0`, and `darr_push` returns `true`, writes the element
at offset `0` and increments the length. -/
theorem darr_push_product_wraps :
    (2 ^ 32) * (2 ^ 32) + 2 ^ 32 > DARR_SZMAX 64 ∧
    ∃ (new : DARR) (al1 : Allocator),
      darr_push 64 (some ⟨2 ^ 32, 2 ^ 33, fun _ => 0⟩) (2 ^ 32) (fun _ => 7) allocOk
        = some (true, some new, al1) ∧
      new.len = 2 ^ 32 + 1 ∧ new.arr 0 = 7 ∧ al1.log = [] :=
  ⟨by decide, _, _, rfl, by decide, by decide, by decide⟩

/-! ## Invariants -/

/-- On a Static or Fixed array: the elements fit, the capacity is a multiple of the
element size, and it is a `size_t`. -/
theorem arr_reach_inv (w tsz : Nat) {T : Type} [Inhabited T] (a : ARR T)
    (h : ArrReach w tsz a) :
    a.len * tsz ≤ a.sz ∧ tsz ∣ a.sz ∧ a.sz ≤ DARR_SZMAX w := by
  induction h with
  | anew elnum hfit =>
    simp only [ARR_NEW, mod_of_le_szmax hfit]
    exact ⟨by omega, Dvd.intro_left elnum rfl, hfit⟩
  | fnew elnum hfit =>
    simp only [FARR_NEW, mod_of_le_szmax hfit]
    exact ⟨by omega, Dvd.intro_left elnum rfl, hfit⟩
  | push a v _ ih =>
    obtain ⟨h1, h2, h3⟩ := ih
    unfold ARR_PUSH
    by_cases hfull : ARR_FULL w tsz a = true
    · simp only [hfull, Bool.not_true, Bool.false_eq_true, if_false]
      exact ⟨h1, h2, h3⟩
    · simp only [hfull, Bool.not_false, if_true]
      refine ⟨?_, h2, h3⟩
      have hne : a.len * tsz ≠ a.sz := by
        intro he
        apply hfull
        simp [ARR_FULL, he, mod_of_le_szmax h3]
      obtain ⟨q, hq⟩ := h2
      have hlt : a.len * tsz < tsz * q := by omega
      have hlq : a.len < q := by
        rw [Nat.mul_comm] at hlt
        exact Nat.lt_of_mul_lt_mul_left hlt
      calc (a.len + 1) % 2 ^ w * tsz ≤ (a.len + 1) * tsz :=
            Nat.mul_le_mul_right _ (Nat.mod_le _ _)
        _ ≤ q * tsz := Nat.mul_le_mul_right _ hlq
        _ = a.sz := by rw [hq, Nat.mul_comm]
  | pop a _ ih =>
    obtain ⟨h1, h2, h3⟩ := ih
    unfold ARR_POP
    split
    · refine ⟨?_, h2, h3⟩
      calc (a.len - 1) * tsz ≤ a.len * tsz := Nat.mul_le_mul_right _ (Nat.sub_le _ _)
        _ ≤ a.sz := h1
    · exact ⟨h1, h2, h3⟩
  | clear a _ ih =>
    obtain ⟨_, h2, h3⟩ := ih
    exact ⟨by simp [ARR_CLEAR], h2, h3⟩

/-- What a successful `darr_new` returns: length `0`, capacity the exact product, which
is a `size_t`. -/
theorem darr_new_some (w elnum elsz : Nat) (al al1 : Allocator) (d : DARR)
    (h : darr_new w elnum elsz al = (some d, al1)) :
    d.len = 0 ∧ d.sz = elnum * elsz ∧ elnum * elsz ≤ DARR_SZMAX w ∧ elnum ≠ 0 ∧ elsz ≠ 0 := by
  unfold darr_new at h
  split at h
  · rename_i hn
    split at h
    · rename_i hs
      split at h
      · rename_i hg
        have hfit : elnum * elsz ≤ DARR_SZMAX w := (guard_iff w elnum elsz hs).mp hg
        rw [mod_of_le_szmax hfit] at h
        split at h
        · split at h
          · simp only [Prod.mk.injEq, Option.some.injEq] at h
            obtain ⟨hd, _⟩ := h
            subst hd
            exact ⟨rfl, rfl, hfit, hn, hs⟩
          · simp at h
        · simp at h
      · simp at h
    · simp at h
  · simp at h

/-- One call of `darr_push` keeps `len * elsz <= sz` and `sz <= SIZE_MAX`, whatever it
returns. -/
theorem darr_push_inv (w : Nat) (bar : DARR) (elsz : Nat) (elem : Nat → UInt8)
    (al : Allocator) (b : Bool) (d1 : DARR) (al1 : Allocator)
    (hinv : bar.len * elsz ≤ bar.sz) (hsz : bar.sz ≤ DARR_SZMAX w)
    (h : darr_push w (some bar) elsz elem al = some (b, some d1, al1)) :
    d1.len * elsz ≤ d1.sz ∧ d1.sz ≤ DARR_SZMAX w := by
  have heff : (bar.len * elsz) % 2 ^ w = bar.len * elsz := mod_of_le_szmax (by omega)
  rcases darr_push_some w bar elsz elem al b (some d1) al1 h with
    ⟨_, hf, _⟩ | ⟨hg, bar1, hl, hfalse, htrue⟩
  · simp only [Option.some.injEq] at hf
    subst hf
    exact ⟨hinv, hsz⟩
  · rw [heff] at hg hl htrue
    obtain ⟨h1, h2, _, h4, h5⟩ := darr_push_loop_spec w _ _ _ _ _ _ _ _ hl
    cases b with
    | false =>
      have := hfalse rfl
      simp only [Option.some.injEq] at this
      subst this
      exact ⟨by rw [h1]; omega, h5 hsz⟩
    | true =>
      have := htrue rfl
      simp only [Option.some.injEq] at this
      subst this
      have hroom := h4 rfl
      rw [mod_of_le_szmax (by omega)] at hroom
      refine ⟨?_, h5 hsz⟩
      show (bar1.len + 1) % 2 ^ w * elsz ≤ bar1.sz
      calc (bar1.len + 1) % 2 ^ w * elsz ≤ (bar1.len + 1) * elsz :=
            Nat.mul_le_mul_right _ (Nat.mod_le _ _)
        _ = bar.len * elsz + elsz := by rw [h1, Nat.add_mul, Nat.one_mul]
        _ ≤ bar1.sz := hroom

/-- One call of `darr_grow` keeps the length, does not shrink the capacity and keeps it
a `size_t`, whatever it returns. -/
theorem darr_grow_inv (w : Nat) (old d1 : DARR) (al al1 : Allocator) (b : Bool)
    (h : darr_grow w (some old) al = (b, some d1, al1)) :
    d1.len = old.len ∧ old.sz ≤ d1.sz ∧ (old.sz ≤ DARR_SZMAX w → d1.sz ≤ DARR_SZMAX w) := by
  rw [darr_grow_some] at h
  split at h
  · rename_i hg
    split at h
    · simp only [Prod.mk.injEq, Option.some.injEq] at h
      obtain ⟨_, hd, _⟩ := h
      subst hd
      exact ⟨rfl, by show old.sz ≤ old.sz + _; omega,
        fun _ => by show old.sz + _ ≤ _; omega⟩
    · simp only [Prod.mk.injEq, Option.some.injEq] at h
      obtain ⟨_, hd, _⟩ := h
      subst hd
      exact ⟨rfl, le_refl _, id⟩
  · simp only [Prod.mk.injEq, Option.some.injEq] at h
    obtain ⟨_, hd, _⟩ := h
    subst hd
    exact ⟨rfl, le_refl _, id⟩

/-- On a Dynamic array: the elements fit and the capacity is a `size_t`. -/
theorem darr_reach_inv (w elsz : Nat) (d : DARR) (h : DarrReach w elsz d) :
    d.len * elsz ≤ d.sz ∧ d.sz ≤ DARR_SZMAX w := by
  induction h with
  | new elnum al al1 d hnew =>
    obtain ⟨h1, h2, h3, _, _⟩ := darr_new_some w elnum elsz al al1 d hnew
    rw [h1, h2]
    exact ⟨by omega, h3⟩
  | push d d1 elem al al1 b _ hp ih =>
    exact darr_push_inv w d elsz elem al b d1 al1 ih.1 ih.2 hp
  | grow d d1 al al1 b _ hg ih =>
    obtain ⟨h1, h2, h3⟩ := darr_grow_inv w d d1 al al1 b hg
    exact ⟨by rw [h1]; omega, h3 ih.2⟩
  | pop d _ ih =>
    unfold DARR_POP ARR_POP
    split
    · refine ⟨?_, ih.2⟩
      calc (d.len - 1) * elsz ≤ d.len * elsz := Nat.mul_le_mul_right _ (Nat.sub_le _ _)
        _ ≤ d.sz := ih.1
    · exact ih
  | clear d _ ih =>
    exact ⟨by simp [DARR_CLEAR, ARR_CLEAR], ih.2⟩

/-- C9: `length * element_size <= capacity_bytes`, in exact arithmetic, holds in every
state of every variant: after `ARR_NEW`, `FARR_NEW` and a successful `darr_new`, and
after any further `ARR_PUSH`/`FARR_PUSH`, `darr_push` (returning `true` or `false`),
`darr_grow`, `ARR_POP`/`FARR_POP`/`DARR_POP` and `ARR_CLEAR`/`FARR_CLEAR`/`DARR_CLEAR`. -/
theorem length_fits_capacity (w tsz : Nat) {T : Type} [Inhabited T] (a : ARR T) (d : DARR) :
    (ArrReach w tsz a → a.len * tsz ≤ a.sz) ∧
    (DarrReach w tsz d → d.len * tsz ≤ d.sz) :=
  ⟨fun h => (arr_reach_inv w tsz a h).1, fun h => (darr_reach_inv w tsz d h).1⟩

theorem length_fits_capacity_witness :
    (ARR_PUSH 64 4 (ARR_NEW 64 4 3 : ARR Nat) 5).len * 4
        ≤ (ARR_PUSH 64 4 (ARR_NEW 64 4 3 : ARR Nat) 5).sz ∧
      (grown ⟨0, 8, fun _ => 0⟩ (fun _ => 0)).len * 8
        ≤ (grown ⟨0, 8, fun _ => 0⟩ (fun _ => 0)).sz :=
  ⟨(length_fits_capacity 64 4 (ARR_PUSH 64 4 (ARR_NEW 64 4 3 : ARR Nat) 5)
      (grown ⟨0, 8, fun _ => 0⟩ (fun _ => 0))).1
      (ArrReach.push _ _ (ArrReach.anew 3 (by decide))),
    (length_fits_capacity 64 8 (ARR_NEW 64 8 1 : ARR Nat)
      (grown ⟨0, 8, fun _ => 0⟩ (fun _ => 0))).2
      (DarrReach.grow ⟨0, 8, fun _ => 0⟩ _ allocOk
        (allocOk.after (Request.realloc 12)) true
        (DarrReach.new 1 allocOk
          ((allocOk.after Request.header).after (Request.malloc 8)) _ rfl) rfl)⟩

/-- With room for one more element, `darr_push` does not touch the capacity. -/
theorem darr_push_room_sz (w : Nat) (bar : DARR) (elsz : Nat) (elem : Nat → UInt8)
    (al : Allocator) (b : Bool) (d1 : DARR) (al1 : Allocator)
    (hroom : bar.len * elsz + elsz ≤ bar.sz) (hsz : bar.sz ≤ DARR_SZMAX w)
    (h : darr_push w (some bar) elsz elem al = some (b, some d1, al1)) :
    b = true ∧ d1.sz = bar.sz := by
  have heff : (bar.len * elsz) % 2 ^ w = bar.len * elsz := mod_of_le_szmax (by omega)
  have hsum : (bar.len * elsz + elsz) % 2 ^ w = bar.len * elsz + elsz :=
    mod_of_le_szmax (by omega)
  rcases darr_push_some w bar elsz elem al b (some d1) al1 h with
    ⟨_, _, hg⟩ | ⟨_, bar1, hl, _, htrue⟩
  · rw [heff] at hg
    omega
  · rw [heff, darr_push_loop_succ, hsum, if_neg (by omega)] at hl
    simp only [Option.some.injEq, Prod.mk.injEq] at hl
    obtain ⟨hb, hd, _⟩ := hl
    subst hb hd
    have := htrue rfl
    simp only [Option.some.injEq] at this
    subst this
    exact ⟨rfl, rfl⟩

/-- C10 (amended): on a Static or Fixed array the capacity is, in every state, an exact
multiple of the element size; on a Dynamic array it is so after a successful `darr_new`,
and `DARR_POP`, `DARR_CLEAR` and a `darr_push` that finds room leave the capacity what it
was. -/
theorem capacity_multiple (w tsz elnum : Nat) {T : Type} [Inhabited T] (a : ARR T)
    (d d1 : DARR) (elem : Nat → UInt8) (al al1 al2 al3 : Allocator) (b : Bool) :
    (ArrReach w tsz a → tsz ∣ a.sz) ∧
    (darr_new w elnum tsz al = (some d, al1) → tsz ∣ d.sz) ∧
    (DARR_POP d).sz = d.sz ∧ (DARR_CLEAR d).sz = d.sz ∧
    (d.len * tsz + tsz ≤ d.sz → d.sz ≤ DARR_SZMAX w →
      darr_push w (some d) tsz elem al2 = some (b, some d1, al3) → d1.sz = d.sz) := by
  refine ⟨fun h => (arr_reach_inv w tsz a h).2.1, fun h => ?_, ?_, rfl, fun h1 h2 h3 => ?_⟩
  · obtain ⟨_, h2, _⟩ := darr_new_some w elnum tsz al al1 d h
    rw [h2]
    exact Dvd.intro_left elnum rfl
  · unfold DARR_POP ARR_POP
    split <;> rfl
  · exact (darr_push_room_sz w d tsz elem al2 b d1 al3 h1 h2 h3).2

theorem capacity_multiple_witness :
    4 ∣ (ARR_PUSH 64 4 (ARR_NEW 64 4 3 : ARR Nat) 5).sz ∧
      8 ∣ (⟨0, 3 * 8, fun _ => 0⟩ : DARR).sz :=
  ⟨(capacity_multiple 64 4 3 (ARR_PUSH 64 4 (ARR_NEW 64 4 3 : ARR Nat) 5)
      ⟨0, 3 * 8, fun _ => 0⟩ ⟨0, 3 * 8, fun _ => 0⟩ (fun _ => 0)
      allocOk allocOk allocOk allocOk true).1
      (ArrReach.push _ _ (ArrReach.anew 3 (by decide))),
    (capacity_multiple 64 8 3 (ARR_NEW 64 8 3 : ARR Nat)
      ⟨0, 3 * 8, fun _ => 0⟩ ⟨0, 3 * 8, fun _ => 0⟩ (fun _ => 0)
      allocOk ((allocOk.after Request.header).after (Request.malloc 24))
      allocOk allocOk true).2.1 rfl⟩

/-- C10 as stated fails on the Dynamic array: after `darr_new(1, 8)` and two pushes of
an element of `8` bytes (every allocation succeeding) the capacity is `18`, which is not a
multiple of `8`. -/
theorem capacity_multiple_counterexample :
    ∃ d : DARR, DarrReach 64 8 d ∧ d.len = 2 ∧ d.sz = 18 ∧ ¬ 8 ∣ d.sz :=
  ⟨_,
    DarrReach.push _ _ (fun _ => 7) allocOk
      (pushedAlloc allocOk (darr_push 64
        (pushed (darr_push 64 (some ⟨0, 8, fun _ => 0⟩) 8 (fun _ => 7) allocOk))
        8 (fun _ => 7) allocOk)) true
      (DarrReach.push ⟨0, 8, fun _ => 0⟩ _ (fun _ => 7) allocOk allocOk true
        (DarrReach.new 1 allocOk
          ((allocOk.after Request.header).after (Request.malloc 8)) _ rfl) rfl) rfl,
    by decide, by decide, by decide⟩

/-! ## Successive pushes -/

theorem grow_cap_gt (c : Nat) : c < grow_cap c := by
  unfold grow_cap
  omega

/-- When every allocation succeeds and every growth step needed on the way to
`effsz + elsz` bytes gives a capacity that is a `size_t`, the loop of `darr_push` ends
normally, at a capacity of the growth sequence. -/
theorem darr_push_loop_all_ok (w effsz elsz c0 : Nat)
    (hT : effsz + elsz ≤ DARR_SZMAX w)
    (hgrow : ∀ k, grow_cap^[k] c0 < effsz + elsz → grow_cap^[k + 1] c0 ≤ DARR_SZMAX w) :
    ∀ (fuel : Nat) (bar : DARR) (al : Allocator),
      DARR_SZMAX w - bar.sz + 1 ≤ fuel → AllOk al → (∃ k, bar.sz = grow_cap^[k] c0) →
      ∃ (bar1 : DARR) (al1 : Allocator),
        darr_push_loop w effsz elsz fuel bar al = some (true, bar1, al1) ∧
        AllOk al1 ∧ (∃ k, bar1.sz = grow_cap^[k] c0) := by
  intro fuel
  induction fuel with
  | zero => intro bar al h; omega
  | succ fuel ih =>
    intro bar al hfuel hal hchain
    rw [darr_push_loop_succ, mod_of_le_szmax hT]
    by_cases hc : effsz + elsz > bar.sz
    · obtain ⟨k, hk⟩ := hchain
      have hnext : grow_cap bar.sz ≤ DARR_SZMAX w := by
        have := hgrow k (by rw [← hk]; exact hc)
        rw [Function.iterate_succ_apply', ← hk] at this
        exact this
      have hg : DARR_SZMAX w - bar.sz ≥ max (bar.sz / 2) 1 := by
        unfold grow_cap at hnext
        omega
      obtain ⟨fill, hf⟩ := Option.isSome_iff_exists.mp (hal 0)
      rw [if_pos hc, if_pos hg, hf]
      have hs : (grown bar fill).sz = grow_cap bar.sz := rfl
      have hgt := grow_cap_gt bar.sz
      apply ih
      · omega
      · intro n
        exact hal (n + 1)
      · exact ⟨k + 1, by rw [hs, Function.iterate_succ_apply', ← hk]⟩
    · rw [if_neg hc]
      exact ⟨bar, al, rfl, hal, hchain⟩

/-- When the overflow check of `darr_push` passes and its loop ends normally, the call
returns `true` and the array the loop left, with the element written at `effsz` and
the length incremented. -/
theorem darr_push_of_loop_true (w : Nat) (bar bar1 : DARR) (elsz : Nat)
    (elem : Nat → UInt8) (al al1 : Allocator)
    (hg : DARR_SZMAX w - (bar.len * elsz) % 2 ^ w ≥ elsz)
    (hl : darr_push_loop w ((bar.len * elsz) % 2 ^ w) elsz (DARR_SZMAX w - bar.sz + 1) bar al
      = some (true, bar1, al1)) :
    darr_push w (some bar) elsz elem al =
      some (true,
        some ⟨(bar1.len + 1) % 2 ^ w, bar1.sz,
          fun j => if (bar.len * elsz) % 2 ^ w ≤ j ∧ j < (bar.len * elsz) % 2 ^ w + elsz
            then elem (j - (bar.len * elsz) % 2 ^ w) else bar1.arr j⟩,
        al1) := by
  unfold darr_push
  simp only [if_pos hg, hl]

/-- One push when every allocation succeeds and the growth steps needed are
representable: it returns `true`, appends the element and keeps what was stored. -/
theorem darr_push_ok (w elsz c0 : Nat) (bar : DARR) (elem : Nat → UInt8) (al : Allocator)
    (hz : elsz ≠ 0) (hT : bar.len * elsz + elsz ≤ DARR_SZMAX w)
    (hgrow : ∀ k, grow_cap^[k] c0 < bar.len * elsz + elsz →
      grow_cap^[k + 1] c0 ≤ DARR_SZMAX w)
    (hinv : bar.len * elsz ≤ bar.sz) (hsz : bar.sz ≤ DARR_SZMAX w)
    (hal : AllOk al) (hchain : ∃ k, bar.sz = grow_cap^[k] c0) :
    ∃ (new : DARR) (al1 : Allocator),
      darr_push w (some bar) elsz elem al = some (true, some new, al1) ∧
      new.len = bar.len + 1 ∧ new.len * elsz ≤ new.sz ∧ new.sz ≤ DARR_SZMAX w ∧
      AllOk al1 ∧ (∃ k, new.sz = grow_cap^[k] c0) ∧
      (∀ j, j < elsz → new.arr (bar.len * elsz + j) = elem j) ∧
      (∀ j, j < bar.len * elsz → new.arr j = bar.arr j) := by
  have heff : (bar.len * elsz) % 2 ^ w = bar.len * elsz := mod_of_le_szmax (by omega)
  obtain ⟨bar1, al1, hl, hal1, hchain1⟩ :=
    darr_push_loop_all_ok w (bar.len * elsz) elsz c0 hT hgrow
      (DARR_SZMAX w - bar.sz + 1) bar al (le_refl _) hal hchain
  obtain ⟨h1, h2, h3, h4, h5⟩ := darr_push_loop_spec w _ _ _ _ _ _ _ _ hl
  have hroom : bar.len * elsz + elsz ≤ bar1.sz := by
    have := h4 rfl
    rwa [mod_of_le_szmax hT] at this
  have hpush := darr_push_of_loop_true w bar bar1 elsz elem al al1
    (by rw [heff]; omega) (by rw [heff]; exact hl)
  rw [heff] at hpush
  have hpos : 1 ≤ elsz := Nat.pos_of_ne_zero hz
  have hmul : (bar.len + 1) * elsz = bar.len * elsz + elsz := by
    rw [Nat.add_mul, Nat.one_mul]
  have hlen : bar.len + 1 ≤ DARR_SZMAX w :=
    calc bar.len + 1 = (bar.len + 1) * 1 := (Nat.mul_one _).symm
      _ ≤ (bar.len + 1) * elsz := Nat.mul_le_mul_left _ hpos
      _ ≤ DARR_SZMAX w := by rw [hmul]; exact hT
  have hnewlen : (bar1.len + 1) % 2 ^ w = bar.len + 1 := by
    rw [h1]
    exact mod_of_le_szmax hlen
  refine ⟨_, al1, hpush, hnewlen, ?_, h5 hsz, hal1, hchain1, fun j hj => ?_, fun j hj => ?_⟩
  · show (bar1.len + 1) % 2 ^ w * elsz ≤ bar1.sz
    rw [hnewlen, hmul]
    exact hroom
  · show (if bar.len * elsz ≤ bar.len * elsz + j ∧ bar.len * elsz + j < bar.len * elsz + elsz
        then elem (bar.len * elsz + j - bar.len * elsz) else bar1.arr (bar.len * elsz + j))
      = elem j
    rw [if_pos (by omega), Nat.add_sub_cancel_left]
  · show (if bar.len * elsz ≤ j ∧ j < bar.len * elsz + elsz
        then elem (j - bar.len * elsz) else bar1.arr j) = bar.arr j
    rw [if_neg (by omega)]
    exact h3 j (by omega)

/-- Successive pushes when every allocation succeeds and the growth steps needed on the
way to `T` bytes are representable: every call returns `true`, the length grows by the
number of calls, what was stored is kept and each element is where it was pushed. -/
theorem darr_push_all_ok (w elsz c0 T : Nat) (hz : elsz ≠ 0) (hT : T ≤ DARR_SZMAX w)
    (hgrow : ∀ k, grow_cap^[k] c0 < T → grow_cap^[k + 1] c0 ≤ DARR_SZMAX w) :
    ∀ (vs : List (Nat → UInt8)) (bar : DARR) (al : Allocator),
      (bar.len + vs.length) * elsz ≤ T → bar.len * elsz ≤ bar.sz →
      bar.sz ≤ DARR_SZMAX w → AllOk al → (∃ k, bar.sz = grow_cap^[k] c0) →
      ∃ (d : DARR) (al1 : Allocator),
        darr_push_all w elsz vs (some bar) al
          = some (List.replicate vs.length true, some d, al1) ∧
        d.len = bar.len + vs.length ∧
        (∀ j, j < bar.len * elsz → d.arr j = bar.arr j) ∧
        (∀ i (hi : i < vs.length) j, j < elsz →
          d.arr ((bar.len + i) * elsz + j) = vs[i] j) := by
  intro vs
  induction vs with
  | nil =>
    intro bar al _ _ _ _ _
    exact ⟨bar, al, rfl, rfl, fun _ _ => rfl, fun i hi => absurd hi (Nat.not_lt_zero i)⟩
  | cons v vs ih =>
    intro bar al hfit hinv hsz hal hchain
    have hlen : (v :: vs).length = vs.length + 1 := rfl
    have hone : bar.len * elsz + elsz ≤ T := by
      have h1 : (bar.len + 1) * elsz ≤ (bar.len + (v :: vs).length) * elsz :=
        Nat.mul_le_mul_right _ (by rw [hlen]; omega)
      rw [Nat.add_mul, Nat.one_mul] at h1
      omega
    obtain ⟨new, al1, hpush, hnl, hninv, hnsz, hal1, hchain1, hwr, hkeep⟩ :=
      darr_push_ok w elsz c0 bar v al hz (by omega)
        (fun k hk => hgrow k (by omega)) hinv hsz hal hchain
    have hfit1 : (new.len + vs.length) * elsz ≤ T := by
      have : new.len + vs.length = bar.len + (v :: vs).length := by rw [hnl, hlen]; omega
      rw [this]
      exact hfit
    obtain ⟨d, al2, hall, hdl, hdkeep, hdwr⟩ := ih new al1 hfit1 hninv hnsz hal1 hchain1
    have hnmul : new.len * elsz = bar.len * elsz + elsz := by
      rw [hnl, Nat.add_mul, Nat.one_mul]
    refine ⟨d, al2, ?_, ?_, fun j hj => ?_, fun i hi j hj => ?_⟩
    · simp only [darr_push_all, hpush, hall, hlen, List.replicate_succ]
    · rw [hdl, hnl, hlen]
      omega
    · rw [hdkeep j (by omega)]
      exact hkeep j hj
    · cases i with
      | zero =>
        rw [Nat.add_zero, hdkeep _ (by omega)]
        exact hwr j hj
      | succ i =>
        have hi1 : i < vs.length := by rw [hlen] at hi; omega
        have := hdwr i hi1 j hj
        rw [hnl] at this
        have hidx : bar.len + (i + 1) = bar.len + 1 + i := by omega
        rw [hidx]
        exact this

/-- The growth steps needed on the way to `T` bytes are representable as soon as
`T + T/2` is. -/
theorem grow_steps_fit (w c0 T : Nat) (hT : T + T / 2 ≤ DARR_SZMAX w) :
    ∀ k, grow_cap^[k] c0 < T → grow_cap^[k + 1] c0 ≤ DARR_SZMAX w := by
  intro k hk
  rw [Function.iterate_succ_apply']
  generalize grow_cap^[k] c0 = x at hk
  unfold grow_cap
  omega

/-- C1 (amended): for every `N >= 1`, every non-zero element size `elsz` and every
sequence `v_0..v_{N-1}` of values: starting from `darr_new(1, elsz)`, when every
`malloc`/`realloc` succeeds (`realloc` keeping the old bytes), `N * elsz` is
representable, and every growth step needed on the way is representable (with
`g(c) = c + max(c/2, 1)`, for every `k` with `g^k(elsz) < N * elsz` the capacity
`g^(k+1)(elsz)` is at most `SIZE_MAX`), the `N` successive calls of `darr_push` all
return `true`, the final length is `N`, and for every `i < N` the `elsz` bytes at offset
`i * elsz` of the buffer are those of `v_i`. -/
theorem darr_push_all_from_new (w elsz : Nat) (vs : List (Nat → UInt8)) (al : Allocator)
    (hN : 1 ≤ vs.length) (hz : elsz ≠ 0) (hal : AllOk al)
    (hfit : vs.length * elsz ≤ DARR_SZMAX w)
    (hgrow : ∀ k, grow_cap^[k] elsz < vs.length * elsz →
      grow_cap^[k + 1] elsz ≤ DARR_SZMAX w) :
    ∃ (d : DARR) (al1 : Allocator),
      darr_push_all w elsz vs (darr_new w 1 elsz al).1 (darr_new w 1 elsz al).2
        = some (List.replicate vs.length true, some d, al1) ∧
      d.len = vs.length ∧
      (∀ i (hi : i < vs.length) j, j < elsz → d.arr (i * elsz + j) = vs[i] j) := by
  have hone : 1 * elsz ≤ DARR_SZMAX w :=
    le_trans (Nat.mul_le_mul_right _ hN) hfit
  obtain ⟨hdr, h0⟩ := Option.isSome_iff_exists.mp (hal 0)
  obtain ⟨fill, h1⟩ := Option.isSome_iff_exists.mp (hal 1)
  rw [darr_new_eval w 1 elsz al hdr fill (by decide) hz hone h0 h1]
  have hal2 : AllOk ((al.after Request.header).after (Request.malloc (1 * elsz))) :=
    fun k => hal (k + 1 + 1)
  obtain ⟨d, al1, hall, hdl, _, hdwr⟩ :=
    darr_push_all_ok w elsz elsz (vs.length * elsz) hz hfit hgrow vs
      ⟨0, 1 * elsz, fill⟩ _
      (by simp) (by simp) hone hal2 ⟨0, by simp⟩
  refine ⟨d, al1, hall, by simpa using hdl, fun i hi j hj => ?_⟩
  have := hdwr i hi j hj
  simpa using this

theorem darr_push_all_from_new_witness :
    ∃ (d : DARR) (al1 : Allocator),
      darr_push_all 64 8 [fun _ => 1, fun _ => 2, fun _ => 3]
          (darr_new 64 1 8 allocOk).1 (darr_new 64 1 8 allocOk).2
        = some (List.replicate 3 true, some d, al1) ∧
      d.len = 3 ∧
      (∀ i (hi : i < 3) j, j < 8 →
        d.arr (i * 8 + j) = ([fun _ => 1, fun _ => 2, fun _ => 3] : List (Nat → UInt8))[i] j) :=
  darr_push_all_from_new 64 8 [fun _ => 1, fun _ => 2, fun _ => 3] allocOk
    (by decide) (by decide) (fun _ => rfl) (by decide)
    (grow_steps_fit 64 8 (3 * 8) (by decide))

/-- C1 as stated fails when a growth step would pass `SIZE_MAX`: with a `size_t` of 64
bits, `elsz = 2 ^ 63 - 1` and `N = 2`, `N * elsz` is representable and every allocation
succeeds, yet the second `darr_push` returns `false`: after growing from `2 ^ 63 - 1` to
`3 * 2 ^ 62 - 2` bytes, `darr_grow` refuses the next step. -/
theorem darr_push_all_from_new_counterexample :
    2 * (2 ^ 63 - 1) ≤ DARR_SZMAX 64 ∧ AllOk allocOk ∧
    ∃ (d : DARR) (al1 : Allocator),
      darr_push_all 64 (2 ^ 63 - 1) [fun _ => 1, fun _ => 2]
          (darr_new 64 1 (2 ^ 63 - 1) allocOk).1 (darr_new 64 1 (2 ^ 63 - 1) allocOk).2
        = some ([true, false], some d, al1) ∧
      d.len = 1 ∧ d.sz = 3 * 2 ^ 62 - 2 :=
  ⟨by decide, fun _ => rfl, _, _, rfl, by decide, by decide⟩

/-! ## Capacity never shrinks -/

/-- One call of `darr_push` does not shrink the capacity, whatever it returns. -/
theorem darr_push_sz_le (w : Nat) (bar d1 : DARR) (elsz : Nat) (elem : Nat → UInt8)
    (al al1 : Allocator) (b : Bool)
    (h : darr_push w (some bar) elsz elem al = some (b, some d1, al1)) :
    bar.sz ≤ d1.sz := by
  rcases darr_push_some w bar elsz elem al b (some d1) al1 h with
    ⟨_, hf, _⟩ | ⟨_, bar1, hl, hfalse, htrue⟩
  · simp only [Option.some.injEq] at hf
    rw [← hf]
  · obtain ⟨_, h2, _, _, _⟩ := darr_push_loop_spec w _ _ _ _ _ _ _ _ hl
    cases b with
    | false =>
      have := hfalse rfl
      simp only [Option.some.injEq] at this
      rw [this]
      exact h2
    | true =>
      have := htrue rfl
      simp only [Option.some.injEq] at this
      rw [this]
      exact h2

theorem darr_step_sz_le (w : Nat) (d d1 : DARR) (h : DarrStep w d d1) : d.sz ≤ d1.sz := by
  cases h with
  | push _ elsz elem al al1 b hp => exact darr_push_sz_le w d d1 elsz elem al al1 b hp
  | grow _ al al1 b hg => exact (darr_grow_inv w d d1 al al1 b hg).2.1
  | pop =>
    unfold DARR_POP ARR_POP
    split <;> exact le_refl _
  | clear => exact le_refl _

/-- C11: after each `darr_push`, `darr_grow`, `DARR_POP` and `DARR_CLEAR` (any element
values, any behaviour of the allocator) the capacity is at least what it was before, so
also after every finite sequence of them; `DARR_POP` and `DARR_CLEAR` leave the capacity
exactly what it was. -/
theorem capacity_monotone (w : Nat) (d d1 : DARR) :
    (DarrStep w d d1 → d.sz ≤ d1.sz) ∧
    (Relation.ReflTransGen (DarrStep w) d d1 → d.sz ≤ d1.sz) ∧
    (DARR_POP d).sz = d.sz ∧ (DARR_CLEAR d).sz = d.sz := by
  refine ⟨darr_step_sz_le w d d1, fun h => ?_, ?_, rfl⟩
  · induction h with
    | refl => exact le_refl _
    | tail _ hstep ih => exact le_trans ih (darr_step_sz_le w _ _ hstep)
  · unfold DARR_POP ARR_POP
    split <;> rfl

theorem capacity_monotone_witness :
    (⟨1, 8, fun _ => 0⟩ : DARR).sz ≤ (grown ⟨1, 8, fun _ => 0⟩ (fun _ => 0)).sz ∧
      (⟨1, 8, fun _ => 0⟩ : DARR).sz ≤ (DARR_POP (grown ⟨1, 8, fun _ => 0⟩ (fun _ => 0))).sz :=
  ⟨(capacity_monotone 64 ⟨1, 8, fun _ => 0⟩ (grown ⟨1, 8, fun _ => 0⟩ (fun _ => 0))).1
      (DarrStep.grow _ _ allocOk (allocOk.after (Request.realloc 12)) true rfl),
    (capacity_monotone 64 ⟨1, 8, fun _ => 0⟩
      (DARR_POP (grown ⟨1, 8, fun _ => 0⟩ (fun _ => 0)))).2.1
      (Relation.ReflTransGen.tail
        (Relation.ReflTransGen.single
          (DarrStep.grow _ _ allocOk (allocOk.after (Request.realloc 12)) true rfl))
        (DarrStep.pop _))⟩

/-! ## Static and Fixed arrays -/

/-- On an array of capacity `n * sizeof(T)` that is a `size_t`, with `sizeof(T)` not
zero and at most `n` elements, `ARR_FULL` says that the length is `n`. -/
theorem arr_full_iff (w tsz n : Nat) {T : Type} (a : ARR T)
    (hz : tsz ≠ 0) (hcap : a.sz = n * tsz) (hfit : n * tsz ≤ DARR_SZMAX w)
    (hL : a.len ≤ n) :
    ARR_FULL w tsz a = true ↔ a.len = n := by
  have hle : a.len * tsz ≤ n * tsz := Nat.mul_le_mul_right _ hL
  simp only [ARR_FULL, beq_iff_eq, mod_of_le_szmax (le_trans hle hfit), hcap]
  constructor
  · intro h
    exact Nat.eq_of_mul_eq_mul_right (Nat.pos_of_ne_zero hz) h
  · intro h
    rw [h]

/-- C13: on a Static or Fixed array created with `n` elements (capacity
`n * sizeof(T)`) and of length `L <= n`: if `L = n`, `ARR_PUSH`/`FARR_PUSH` leaves the
array (length and every element) what it was; otherwise `L < n`, the value is stored at
index `L`, the length becomes `L + 1`, and every element at another index, and the
capacity, are what they were. -/
theorem arr_push_spec (w tsz n : Nat) {T : Type} (a : ARR T) (v : T)
    (hz : tsz ≠ 0) (hcap : a.sz = n * tsz) (hfit : n * tsz ≤ DARR_SZMAX w)
    (hL : a.len ≤ n) :
    (a.len = n → ARR_PUSH w tsz a v = a ∧ FARR_PUSH w tsz a v = a) ∧
    (a.len ≠ n →
      a.len < n ∧ (ARR_PUSH w tsz a v).len = a.len + 1 ∧
      (ARR_PUSH w tsz a v).arr a.len = v ∧
      (∀ i, i ≠ a.len → (ARR_PUSH w tsz a v).arr i = a.arr i) ∧
      (ARR_PUSH w tsz a v).sz = a.sz) := by
  have hfull := arr_full_iff w tsz n a hz hcap hfit hL
  constructor
  · intro h
    have hf : ARR_FULL w tsz a = true := hfull.mpr h
    simp [FARR_PUSH, ARR_PUSH, hf]
  · intro h
    have hf : ARR_FULL w tsz a = false := by
      cases hc : ARR_FULL w tsz a with
      | false => rfl
      | true => exact absurd (hfull.mp hc) h
    have hlt : a.len < n := Nat.lt_of_le_of_ne hL h
    have hn : n ≤ DARR_SZMAX w :=
      calc n = n * 1 := (Nat.mul_one n).symm
        _ ≤ n * tsz := Nat.mul_le_mul_left _ (Nat.pos_of_ne_zero hz)
        _ ≤ DARR_SZMAX w := hfit
    have hlen : (a.len + 1) % 2 ^ w = a.len + 1 := mod_of_le_szmax (by omega)
    simp only [ARR_PUSH, hf, Bool.not_false, if_true, hlen]
    refine ⟨hlt, trivial, by simp, fun i hi => by simp [hi], trivial⟩

theorem arr_push_spec_witness :
    ARR_PUSH 64 4 (⟨3, 12, fun _ => 0⟩ : ARR Nat) 5 = ⟨3, 12, fun _ => 0⟩ ∧
      (ARR_PUSH 64 4 (⟨1, 12, fun _ => 0⟩ : ARR Nat) 5).len = 1 + 1 ∧
      (ARR_PUSH 64 4 (⟨1, 12, fun _ => 0⟩ : ARR Nat) 5).arr 1 = 5 :=
  ⟨((arr_push_spec 64 4 3 (⟨3, 12, fun _ => 0⟩ : ARR Nat) 5 (by decide) rfl (by decide)
      (by decide)).1 rfl).1,
    ((arr_push_spec 64 4 3 (⟨1, 12, fun _ => 0⟩ : ARR Nat) 5 (by decide) rfl (by decide)
      (by decide)).2 (by decide)).2.1,
    ((arr_push_spec 64 4 3 (⟨1, 12, fun _ => 0⟩ : ARR Nat) 5 (by decide) rfl (by decide)
      (by decide)).2 (by decide)).2.2.1⟩

/-- C14: on an array of any variant, Pop on length `0` leaves the length `0`, Pop on
length `L > 0` sets the length to `L - 1`, and in both cases the capacity and the whole
buffer (the slot removed too) are what they were. -/
theorem arr_pop_spec {T : Type} (a : ARR T) (d : DARR) :
    (a.len = 0 → (ARR_POP a).len = 0) ∧
    (0 < a.len → (ARR_POP a).len = a.len - 1) ∧
    (ARR_POP a).sz = a.sz ∧ (ARR_POP a).arr = a.arr ∧
    FARR_POP a = ARR_POP a ∧
    (d.len = 0 → (DARR_POP d).len = 0) ∧
    (0 < d.len → (DARR_POP d).len = d.len - 1) ∧
    (DARR_POP d).sz = d.sz ∧ (DARR_POP d).arr = d.arr := by
  have key : ∀ {U : Type} (x : ARR U),
      (x.len = 0 → (ARR_POP x).len = 0) ∧ (0 < x.len → (ARR_POP x).len = x.len - 1) ∧
      (ARR_POP x).sz = x.sz ∧ (ARR_POP x).arr = x.arr := by
    intro U x
    unfold ARR_POP
    by_cases h : x.len ≠ 0
    · rw [if_pos h]
      exact ⟨fun h0 => absurd h0 h, fun _ => rfl, rfl, rfl⟩
    · rw [if_neg h]
      exact ⟨fun h0 => h0, fun hp => by omega, rfl, rfl⟩
  obtain ⟨a1, a2, a3, a4⟩ := key a
  obtain ⟨d1, d2, d3, d4⟩ := key d
  exact ⟨a1, a2, a3, a4, rfl, d1, d2, d3, d4⟩

theorem arr_pop_spec_witness :
    (ARR_POP (⟨0, 12, fun _ => 0⟩ : ARR Nat)).len = 0 ∧
      (ARR_POP (⟨3, 12, fun _ => 0⟩ : ARR Nat)).len = 3 - 1 ∧
      (DARR_POP ⟨2, 18, fun _ => 0⟩).len = 2 - 1 :=
  ⟨(arr_pop_spec (⟨0, 12, fun _ => 0⟩ : ARR Nat) ⟨2, 18, fun _ => 0⟩).1 rfl,
    (arr_pop_spec (⟨3, 12, fun _ => 0⟩ : ARR Nat) ⟨2, 18, fun _ => 0⟩).2.1 (by decide),
    (arr_pop_spec (⟨3, 12, fun _ => 0⟩ : ARR Nat) ⟨2, 18, fun _ => 0⟩).2.2.2.2.2.2.1
      (by decide)⟩

/-- C15: on an array of any variant and in any state, Clear sets the length to `0` and
leaves the capacity and the buffer what they were, and Clear after Clear gives the state
one Clear gives. -/
theorem arr_clear_spec {T : Type} (a : ARR T) (d : DARR) :
    (ARR_CLEAR a).len = 0 ∧ (ARR_CLEAR a).sz = a.sz ∧ (ARR_CLEAR a).arr = a.arr ∧
    ARR_CLEAR (ARR_CLEAR a) = ARR_CLEAR a ∧
    FARR_CLEAR a = ARR_CLEAR a ∧
    (DARR_CLEAR d).len = 0 ∧ (DARR_CLEAR d).sz = d.sz ∧ (DARR_CLEAR d).arr = d.arr ∧
    DARR_CLEAR (DARR_CLEAR d) = DARR_CLEAR d :=
  ⟨rfl, rfl, rfl, rfl, rfl, rfl, rfl, rfl, rfl⟩

/-- C16: on an array with element size not zero and `len * elsz <= sz` (`sz` a
`size_t`), `ARR_AVAILIBLE` is `(sz - len * elsz) / elsz` in exact arithmetic and
`ARR_FULL` holds exactly when `len * elsz = sz`; when the capacity is `n * elsz` (a
Static or Fixed array created with `n` elements, so `L <= n`), `ARR_AVAILIBLE` is
`n - L`, and `ARR_FULL` holds exactly when `L = n`, which is exactly when
`ARR_AVAILIBLE` is `0`. -/
theorem arr_available_spec (w tsz n : Nat) {T : Type} (a : ARR T)
    (hz : tsz ≠ 0) (hsz : a.sz ≤ DARR_SZMAX w) (hinv : a.len * tsz ≤ a.sz) :
    ARR_AVAILIBLE w tsz a = (a.sz - a.len * tsz) / tsz ∧
    (ARR_FULL w tsz a = true ↔ a.len * tsz = a.sz) ∧
    (a.sz = n * tsz →
      a.len ≤ n ∧ ARR_AVAILIBLE w tsz a = n - a.len ∧
      (ARR_FULL w tsz a = true ↔ a.len = n) ∧
      (a.len = n ↔ ARR_AVAILIBLE w tsz a = 0)) := by
  have hpos : 0 < tsz := Nat.pos_of_ne_zero hz
  have hmod : (a.len * tsz) % 2 ^ w = a.len * tsz := mod_of_le_szmax (by omega)
  have hsub : (a.sz + 2 ^ w - a.len * tsz) % 2 ^ w = a.sz - a.len * tsz := by
    have h1 : a.sz + 2 ^ w - a.len * tsz = (a.sz - a.len * tsz) + 2 ^ w := by omega
    rw [h1, Nat.add_mod_right]
    exact mod_of_le_szmax (by omega)
  have hav : ARR_AVAILIBLE w tsz a = (a.sz - a.len * tsz) / tsz := by
    simp only [ARR_AVAILIBLE, hmod, hsub]
  have hfull : ARR_FULL w tsz a = true ↔ a.len * tsz = a.sz := by
    simp only [ARR_FULL, beq_iff_eq, hmod]
  refine ⟨hav, hfull, fun hcap => ?_⟩
  have hL : a.len ≤ n := by
    rw [hcap] at hinv
    exact Nat.le_of_mul_le_mul_right hinv hpos
  have hn : ARR_AVAILIBLE w tsz a = n - a.len := by
    rw [hav, hcap, ← Nat.sub_mul, Nat.mul_div_cancel _ hpos]
  refine ⟨hL, hn, ?_, ?_⟩
  · rw [hfull, hcap]
    constructor
    · intro h
      exact Nat.eq_of_mul_eq_mul_right hpos h
    · intro h
      rw [h]
  · rw [hn]
    omega

theorem arr_available_spec_witness :
    ARR_AVAILIBLE 64 4 (⟨1, 12, fun _ => 0⟩ : ARR Nat) = (12 - 1 * 4) / 4 ∧
      ARR_AVAILIBLE 64 4 (⟨1, 12, fun _ => 0⟩ : ARR Nat) = 3 - 1 :=
  ⟨(arr_available_spec 64 4 3 (⟨1, 12, fun _ => 0⟩ : ARR Nat) (by decide) (by decide)
      (by decide)).1,
    ((arr_available_spec 64 4 3 (⟨1, 12, fun _ => 0⟩ : ARR Nat) (by decide) (by decide)
      (by decide)).2.2 rfl).2.1⟩

/-! ## The growth steps of one push -/

theorem grow_requests_succ (c k : Nat) :
    grow_requests c (k + 1)
      = grow_requests (grow_cap c) k ++ [Request.realloc (grow_cap c)] := by
  simp only [grow_requests, List.range_succ_eq_map, List.reverse_cons, List.map_append,
    List.map_reverse, List.map_map, List.map_cons, List.map_nil]
  rfl

/-- One turn of the count of the calls of `darr_grow`, by cases. -/
theorem darr_push_iters_succ (w effsz elsz fuel : Nat) (bar : DARR) (al : Allocator) :
    darr_push_iters w effsz elsz (fuel + 1) bar al =
      if (effsz + elsz) % 2 ^ w > bar.sz then
        if DARR_SZMAX w - bar.sz ≥ max (bar.sz / 2) 1 then
          match al.next 0 with
          | some fill =>
            darr_push_iters w effsz elsz fuel (grown bar fill)
              (al.after (Request.realloc (grow_cap bar.sz))) + 1
          | none => 1
        else 1
      else 0 := by
  rw [darr_push_iters]
  by_cases hc : (effsz + elsz) % 2 ^ w > bar.sz
  · rw [if_pos hc, if_pos hc, darr_grow_some]
    by_cases hg : DARR_SZMAX w - bar.sz ≥ max (bar.sz / 2) 1
    · rw [if_pos hg, if_pos hg]
      cases al.next 0 <;> rfl
    · rw [if_neg hg, if_neg hg]
  · rw [if_neg hc, if_neg hc]

/-- A loop of `darr_push` that ends normally made `k` growth steps, `k` the least number
with `g^k(sz)` at least `effsz + elsz`: the capacity is `g^k(sz)`, the requests were
those `k` calls of `realloc`, and `darr_grow` was called `k` times. -/
theorem darr_push_loop_trace (w effsz elsz : Nat) :
    ∀ (fuel : Nat) (bar : DARR) (al : Allocator) (bar1 : DARR) (al1 : Allocator),
      darr_push_loop w effsz elsz fuel bar al = some (true, bar1, al1) →
      ∃ k, bar1.sz = grow_cap^[k] bar.sz ∧
        (∀ i, i < k → grow_cap^[i] bar.sz < (effsz + elsz) % 2 ^ w) ∧
        (effsz + elsz) % 2 ^ w ≤ grow_cap^[k] bar.sz ∧
        al1.log = grow_requests bar.sz k ++ al.log ∧
        darr_push_iters w effsz elsz fuel bar al = k := by
  intro fuel
  induction fuel with
  | zero =>
    intro bar al bar1 al1 h
    simp [darr_push_loop] at h
  | succ fuel ih =>
    intro bar al bar1 al1 h
    rw [darr_push_loop_succ] at h
    rw [darr_push_iters_succ]
    by_cases hc : (effsz + elsz) % 2 ^ w > bar.sz
    · rw [if_pos hc] at h
      rw [if_pos hc]
      by_cases hg : DARR_SZMAX w - bar.sz ≥ max (bar.sz / 2) 1
      · rw [if_pos hg] at h
        rw [if_pos hg]
        cases hf : al.next 0 with
        | none =>
          rw [hf] at h
          simp at h
        | some fill =>
          rw [hf] at h
          obtain ⟨k, h1, h2, h3, h4, h5⟩ := ih _ _ _ _ h
          have hs : (grown bar fill).sz = grow_cap bar.sz := rfl
          rw [hs] at h1 h2 h3 h4
          refine ⟨k + 1, ?_, fun i hi => ?_, ?_, ?_, ?_⟩
          · rw [Function.iterate_succ_apply]
            exact h1
          · cases i with
            | zero => exact hc
            | succ i =>
              rw [Function.iterate_succ_apply]
              exact h2 i (by omega)
          · rw [Function.iterate_succ_apply]
            exact h3
          · rw [h4, grow_requests_succ, List.append_assoc]
            rfl
          · simp only [h5]
      · rw [if_neg hg] at h
        simp at h
    · rw [if_neg hc] at h
      rw [if_neg hc]
      simp only [Option.some.injEq, Prod.mk.injEq, true_and] at h
      obtain ⟨hb, ha⟩ := h
      subst hb ha
      exact ⟨0, rfl, fun i hi => absurd hi (Nat.not_lt_zero i), by simpa using hc, rfl, rfl⟩

/-- A loop of `darr_push` that ends through `return false` ends on a call of `darr_grow`
that returns `false`, with the capacity still too small. -/
theorem darr_push_loop_false (w effsz elsz : Nat) :
    ∀ (fuel : Nat) (bar : DARR) (al : Allocator) (bar1 : DARR) (al1 : Allocator),
      darr_push_loop w effsz elsz fuel bar al = some (false, bar1, al1) →
      bar1.sz < (effsz + elsz) % 2 ^ w ∧
      ∃ al0 : Allocator, darr_grow w (some bar1) al0 = (false, some bar1, al1) := by
  intro fuel
  induction fuel with
  | zero =>
    intro bar al bar1 al1 h
    simp [darr_push_loop] at h
  | succ fuel ih =>
    intro bar al bar1 al1 h
    have hgrow := darr_grow_some w bar al
    rw [darr_push_loop_succ] at h
    by_cases hc : (effsz + elsz) % 2 ^ w > bar.sz
    · rw [if_pos hc] at h
      by_cases hg : DARR_SZMAX w - bar.sz ≥ max (bar.sz / 2) 1
      · rw [if_pos hg] at h hgrow
        cases hf : al.next 0 with
        | none =>
          rw [hf] at h hgrow
          simp only [Option.some.injEq, Prod.mk.injEq, true_and] at h
          obtain ⟨hb, ha⟩ := h
          subst hb ha
          exact ⟨hc, al, hgrow⟩
        | some fill =>
          rw [hf] at h
          exact ih _ _ _ _ h
      · rw [if_neg hg] at h hgrow
        simp only [Option.some.injEq, Prod.mk.injEq, true_and] at h
        obtain ⟨hb, ha⟩ := h
        subst hb ha
        exact ⟨hc, al, hgrow⟩
    · rw [if_neg hc] at h
      simp at h

/-- The loop of `darr_push` calls `darr_grow` at most `DARR_SZMAX - sz` times. -/
theorem darr_push_iters_le (w effsz elsz : Nat) :
    ∀ (fuel : Nat) (bar : DARR) (al : Allocator),
      darr_push_iters w effsz elsz fuel bar al ≤ DARR_SZMAX w - bar.sz := by
  have hneed : (effsz + elsz) % 2 ^ w ≤ DARR_SZMAX w := by
    have := Nat.mod_lt (effsz + elsz) (Nat.two_pow_pos w)
    rw [pow_eq_szmax_succ] at this ⊢
    omega
  intro fuel
  induction fuel with
  | zero => intro bar al; exact Nat.zero_le _
  | succ fuel ih =>
    intro bar al
    rw [darr_push_iters_succ]
    by_cases hc : (effsz + elsz) % 2 ^ w > bar.sz
    · rw [if_pos hc]
      by_cases hg : DARR_SZMAX w - bar.sz ≥ max (bar.sz / 2) 1
      · rw [if_pos hg]
        cases hf : al.next 0 with
        | none => show 1 ≤ _; omega
        | some fill =>
          have hs : (grown bar fill).sz = bar.sz + max (bar.sz / 2) 1 := rfl
          have := ih (grown bar fill) (al.after (Request.realloc (grow_cap bar.sz)))
          show _ + 1 ≤ _
          omega
      · rw [if_neg hg]
        omega
    · rw [if_neg hc]
      exact Nat.zero_le _

/-- With room for one more element, `darr_push` returns `true` without a call of
`darr_grow` or of the allocator: the element is written at `len * elsz`, the length is
incremented, and the capacity is what it was. -/
theorem darr_push_room (w : Nat) (bar : DARR) (elsz : Nat) (elem : Nat → UInt8)
    (al : Allocator)
    (hroom : bar.len * elsz + elsz ≤ bar.sz) (hsz : bar.sz ≤ DARR_SZMAX w) :
    darr_push w (some bar) elsz elem al =
      some (true,
        some ⟨(bar.len + 1) % 2 ^ w, bar.sz,
          fun j => if bar.len * elsz ≤ j ∧ j < bar.len * elsz + elsz
            then elem (j - bar.len * elsz) else bar.arr j⟩,
        al) ∧
    darr_push_grows w (some bar) elsz al = 0 := by
  have heff : (bar.len * elsz) % 2 ^ w = bar.len * elsz := mod_of_le_szmax (by omega)
  have hsum : (bar.len * elsz + elsz) % 2 ^ w = bar.len * elsz + elsz :=
    mod_of_le_szmax (by omega)
  have hg : DARR_SZMAX w - (bar.len * elsz) % 2 ^ w ≥ elsz := by rw [heff]; omega
  have hl : darr_push_loop w ((bar.len * elsz) % 2 ^ w) elsz (DARR_SZMAX w - bar.sz + 1)
      bar al = some (true, bar, al) := by
    rw [heff, darr_push_loop_succ, hsum, if_neg (by omega)]
  have hp := darr_push_of_loop_true w bar bar elsz elem al al hg hl
  rw [heff] at hp
  refine ⟨hp, ?_⟩
  simp only [darr_push_grows, if_pos hg]
  rw [heff, darr_push_iters_succ, hsum, if_neg (by omega)]

/-- A call of `darr_push` that returns `true` on an array with `len * elsz <= sz` made
`k` growth steps, `k` the least number with `g^k(sz)` at least `len * elsz + elsz`. -/
theorem darr_push_true_trace (w : Nat) (bar : DARR) (elsz : Nat) (elem : Nat → UInt8)
    (al : Allocator) (foo1 : Option DARR) (al1 : Allocator)
    (hsz : bar.sz ≤ DARR_SZMAX w) (hinv : bar.len * elsz ≤ bar.sz)
    (h : darr_push w (some bar) elsz elem al = some (true, foo1, al1)) :
    ∃ (new : DARR) (k : Nat), foo1 = some new ∧
      new.sz = grow_cap^[k] bar.sz ∧
      bar.len * elsz + elsz ≤ grow_cap^[k] bar.sz ∧
      (∀ i, i < k → grow_cap^[i] bar.sz < bar.len * elsz + elsz) ∧
      darr_push_grows w (some bar) elsz al = k ∧
      al1.log = grow_requests bar.sz k ++ al.log := by
  have heff : (bar.len * elsz) % 2 ^ w = bar.len * elsz := mod_of_le_szmax (by omega)
  rcases darr_push_some w bar elsz elem al true foo1 al1 h with
    ⟨hb, _, _⟩ | ⟨hg, bar1, hl, _, ht⟩
  · simp at hb
  · obtain ⟨k, h1, h2, h3, h4, h5⟩ := darr_push_loop_trace w _ _ _ _ _ _ _ hl
    have hgrows : darr_push_grows w (some bar) elsz al = k := by
      simp only [darr_push_grows, if_pos hg]
      exact h5
    rw [heff] at hg h2 h3
    have hsum : (bar.len * elsz + elsz) % 2 ^ w = bar.len * elsz + elsz :=
      mod_of_le_szmax (by omega)
    rw [hsum] at h2 h3
    exact ⟨_, k, ht rfl, h1, h3, h2, hgrows, h4⟩

/-- C17: on an array of length `L` and capacity `C` with `L * elsz <= C`, with
`g(c) = c + max(c/2, 1)`: when `darr_push` returns `true`, the capacity after is `g^k(C)`
for the least `k` with `g^k(C) >= L * elsz + elsz`, `darr_grow` was called exactly `k`
times, and the requests to the allocator were the `k` calls of `realloc` of those steps;
when there is room already (`L * elsz + elsz <= C`), `darr_push` returns `true` with no
call of `darr_grow`, the capacity and the allocator being what they were. -/
theorem darr_push_growth (w : Nat) (bar : DARR) (elsz : Nat) (elem : Nat → UInt8)
    (al : Allocator)
    (hsz : bar.sz ≤ DARR_SZMAX w) (hinv : bar.len * elsz ≤ bar.sz) :
    (∀ (foo1 : Option DARR) (al1 : Allocator),
      darr_push w (some bar) elsz elem al = some (true, foo1, al1) →
      ∃ (new : DARR) (k : Nat), foo1 = some new ∧
        new.sz = grow_cap^[k] bar.sz ∧
        bar.len * elsz + elsz ≤ grow_cap^[k] bar.sz ∧
        (∀ i, i < k → grow_cap^[i] bar.sz < bar.len * elsz + elsz) ∧
        darr_push_grows w (some bar) elsz al = k ∧
        al1.log = grow_requests bar.sz k ++ al.log) ∧
    (bar.len * elsz + elsz ≤ bar.sz →
      ∃ new : DARR, darr_push w (some bar) elsz elem al = some (true, some new, al) ∧
        new.sz = bar.sz ∧ darr_push_grows w (some bar) elsz al = 0) := by
  constructor
  · intro foo1 al1 h
    exact darr_push_true_trace w bar elsz elem al foo1 al1 hsz hinv h
  · intro hroom
    obtain ⟨hp, hg⟩ := darr_push_room w bar elsz elem al hroom hsz
    exact ⟨_, hp, rfl, hg⟩

theorem darr_push_growth_witness :
    ∃ (new : DARR) (k : Nat),
      pushed (darr_push 64 (some ⟨1, 8, fun _ => 0⟩) 8 (fun _ => 7) allocOk) = some new ∧
      new.sz = grow_cap^[k] 8 ∧
      1 * 8 + 8 ≤ grow_cap^[k] 8 ∧
      (∀ i, i < k → grow_cap^[i] 8 < 1 * 8 + 8) ∧
      darr_push_grows 64 (some ⟨1, 8, fun _ => 0⟩) 8 allocOk = k ∧
      (pushedAlloc allocOk
        (darr_push 64 (some ⟨1, 8, fun _ => 0⟩) 8 (fun _ => 7) allocOk)).log
        = grow_requests 8 k ++ allocOk.log :=
  (darr_push_growth 64 ⟨1, 8, fun _ => 0⟩ 8 (fun _ => 7) allocOk (by decide) (by decide)).1
    _ _ rfl

/-! ## Termination of the loop of `darr_push` -/

/-- A call of `darr_grow` that returns `true` makes the capacity `g(sz)`, which is
larger than `sz` and at most `DARR_SZMAX`. -/
theorem darr_grow_true_sz (w : Nat) (d d1 : DARR) (al al1 : Allocator)
    (h : darr_grow w (some d) al = (true, some d1, al1)) :
    d1.sz = grow_cap d.sz ∧ d.sz + 1 ≤ d1.sz ∧ d1.sz ≤ DARR_SZMAX w := by
  rw [darr_grow_some] at h
  split at h
  · rename_i hg
    split at h
    · simp only [Prod.mk.injEq, Option.some.injEq, true_and] at h
      obtain ⟨hd, _⟩ := h
      subst hd
      refine ⟨rfl, ?_, ?_⟩
      · show d.sz + 1 ≤ d.sz + max (d.sz / 2) 1
        omega
      · show d.sz + max (d.sz / 2) 1 ≤ DARR_SZMAX w
        omega
    · simp at h
  · simp at h

/-- C18: the loop of `darr_push` ends for every array, every element size and every
behaviour of the allocator, after at most `SIZE_MAX - capacity_bytes` calls of
`darr_grow`: each call of `darr_grow` that returns `true` makes the capacity larger by at
least `1` and keeps it at most `SIZE_MAX`. The loop ends either normally, the capacity
being at least `length * elsz + elsz` as the loop computes it in `size_t` (which is the
exact `length * elsz + elsz` whenever that is representable), or through `return false`
on a call of `darr_grow` that returned `false`. So `darr_push` always returns. -/
theorem darr_push_loop_terminates (w : Nat) (bar : DARR) (elsz : Nat) (al : Allocator) :
    (∃ (b : Bool) (bar1 : DARR) (al1 : Allocator),
      darr_push_loop w ((bar.len * elsz) % 2 ^ w) elsz (DARR_SZMAX w - bar.sz + 1) bar al
        = some (b, bar1, al1) ∧
      (b = true → ((bar.len * elsz) % 2 ^ w + elsz) % 2 ^ w ≤ bar1.sz) ∧
      (b = true → bar.len * elsz + elsz ≤ DARR_SZMAX w →
        bar.len * elsz + elsz ≤ bar1.sz) ∧
      (b = false → ∃ al0 : Allocator,
        darr_grow w (some bar1) al0 = (false, some bar1, al1))) ∧
    darr_push_iters w ((bar.len * elsz) % 2 ^ w) elsz (DARR_SZMAX w - bar.sz + 1) bar al
      ≤ DARR_SZMAX w - bar.sz ∧
    (∀ (d d1 : DARR) (a a1 : Allocator), darr_grow w (some d) a = (true, some d1, a1) →
      d.sz + 1 ≤ d1.sz ∧ d1.sz ≤ DARR_SZMAX w) ∧
    (∀ (foo : Option DARR) (elem : Nat → UInt8), (darr_push w foo elsz elem al).isSome) := by
  refine ⟨?_, darr_push_iters_le w _ _ _ _ _,
    fun d d1 a a1 h => (darr_grow_true_sz w d d1 a a1 h).2,
    fun foo elem => darr_push_total w foo elsz elem al⟩
  have ht := darr_push_loop_total w ((bar.len * elsz) % 2 ^ w) elsz
    (DARR_SZMAX w - bar.sz + 1) bar al (le_refl _)
  obtain ⟨⟨b, bar1, al1⟩, hr⟩ := Option.isSome_iff_exists.mp ht
  refine ⟨b, bar1, al1, hr, fun hb => ?_, fun hb hrep => ?_, fun hb => ?_⟩
  · subst hb
    exact (darr_push_loop_spec w _ _ _ _ _ _ _ _ hr).2.2.2.1 rfl
  · subst hb
    obtain ⟨_, _, _, h4, _⟩ := darr_push_loop_spec w _ _ _ _ _ _ _ _ hr
    have hroom := h4 rfl
    rwa [mod_of_le_szmax (show bar.len * elsz ≤ DARR_SZMAX w by omega),
      mod_of_le_szmax hrep] at hroom
  · subst hb
    exact (darr_push_loop_false w _ _ _ _ _ _ _ hr).2

theorem darr_push_loop_terminates_witness :
    (⟨1, 8, fun _ => 0⟩ : DARR).sz + 1 ≤ (grown ⟨1, 8, fun _ => 0⟩ (fun _ => 0)).sz ∧
      (grown ⟨1, 8, fun _ => 0⟩ (fun _ => 0)).sz ≤ DARR_SZMAX 64 :=
  (darr_push_loop_terminates 64 ⟨1, 8, fun _ => 0⟩ 8 allocOk).2.2.1
    ⟨1, 8, fun _ => 0⟩ (grown ⟨1, 8, fun _ => 0⟩ (fun _ => 0)) allocOk
    (allocOk.after (Request.realloc 12)) rfl

/-! ## The trace from `darr_new(1, 8)` -/

theorem grow_cap_iterate_mono (c : Nat) : ∀ i k, i ≤ k → grow_cap^[i] c ≤ grow_cap^[k] c := by
  intro i k hik
  induction k with
  | zero =>
    have : i = 0 := by omega
    rw [this]
  | succ k ih =>
    by_cases h : i = k + 1
    · rw [h]
    · have := ih (by omega)
      rw [Function.iterate_succ_apply']
      exact le_trans this (le_of_lt (grow_cap_gt _))

/-- The run `darr_new(1, 8)`, push, push of elements of `8` bytes, every allocation
succeeding, on a `size_t` that can hold `18`: capacity `8` and length `0`; then length
`1`, capacity `8`, no growth step; then two growth steps, to `12` and to `18` bytes, and
length `2`. -/
theorem darr_new_push_push (w : Nat) (al : Allocator) (e1 e2 : Nat → UInt8)
    (hw : 18 ≤ DARR_SZMAX w) (hal : AllOk al) :
    ∃ (d0 d1 d2 : DARR) (al0 al2 : Allocator),
      darr_new w 1 8 al = (some d0, al0) ∧ d0.len = 0 ∧ d0.sz = 8 ∧
      darr_push w (some d0) 8 e1 al0 = some (true, some d1, al0) ∧
      d1.len = 1 ∧ d1.sz = 8 ∧ darr_push_grows w (some d0) 8 al0 = 0 ∧
      darr_push w (some d1) 8 e2 al0 = some (true, some d2, al2) ∧
      d2.len = 2 ∧ d2.sz = 18 ∧ darr_push_grows w (some d1) 8 al0 = 2 ∧
      al2.log = [Request.realloc 18, Request.realloc 12] ++ al0.log := by
  obtain ⟨hdr, h0⟩ := Option.isSome_iff_exists.mp (hal 0)
  obtain ⟨fill, h1⟩ := Option.isSome_iff_exists.mp (hal 1)
  have hnew := darr_new_eval w 1 8 al hdr fill (by decide) (by decide) (by omega) h0 h1
  have hal0 : AllOk ((al.after Request.header).after (Request.malloc (1 * 8))) :=
    fun k => hal (k + 1 + 1)
  generalize (al.after Request.header).after (Request.malloc (1 * 8)) = al0 at hnew hal0
  obtain ⟨hp1, hg1⟩ := darr_push_room w ⟨0, 1 * 8, fill⟩ 8 e1 al0
      (by show 0 * 8 + 8 ≤ 1 * 8; omega) (by show 1 * 8 ≤ DARR_SZMAX w; omega)
  have hone : (0 + 1) % 2 ^ w = 1 := mod_of_le_szmax (by omega)
  rw [hone] at hp1
  generalize hd1 : (⟨1, 1 * 8, fun j => if 0 * 8 ≤ j ∧ j < 0 * 8 + 8
      then e1 (j - 0 * 8) else fill j⟩ : DARR) = d1 at hp1
  have hd1len : d1.len = 1 := by rw [← hd1]
  have hd1sz : d1.sz = 8 := by rw [← hd1]
  have hsteps : ∀ k, grow_cap^[k] 8 < d1.len * 8 + 8 → grow_cap^[k + 1] 8 ≤ DARR_SZMAX w := by
    intro k hk
    rw [hd1len] at hk
    have hk2 : k < 2 := by
      by_contra hge
      have hm := grow_cap_iterate_mono 8 2 k (by omega)
      have h18 : grow_cap^[2] 8 = 18 := by decide
      omega
    have hm := grow_cap_iterate_mono 8 (k + 1) 2 (by omega)
    have h18 : grow_cap^[2] 8 = 18 := by decide
    omega
  obtain ⟨d2, al2, hp2, hd2len, _, _, _, _, _, _⟩ :=
    darr_push_ok w 8 8 d1 e2 al0 (by decide) (by rw [hd1len]; omega) hsteps
      (by rw [hd1len, hd1sz]) (by rw [hd1sz]; omega) hal0 ⟨0, by rw [hd1sz]; rfl⟩
  obtain ⟨new, k, hnew2, hsz2, hge, hlt, hgrows, hlog⟩ :=
    darr_push_true_trace w d1 8 e2 al0 (some d2) al2 (by rw [hd1sz]; omega)
      (by rw [hd1len, hd1sz]) hp2
  simp only [Option.some.injEq] at hnew2
  subst hnew2
  rw [hd1len, hd1sz] at hge hlt
  rw [hd1sz] at hsz2 hlog
  have hk : k = 2 := by
    have g0 : grow_cap^[0] 8 = 8 := by decide
    have g1 : grow_cap^[1] 8 = 12 := by decide
    have g2 : grow_cap^[2] 8 = 18 := by decide
    rcases Nat.lt_trichotomy k 2 with hlt2 | heq | hgt2
    · have hk01 : k = 0 ∨ k = 1 := by omega
      rcases hk01 with hk0 | hk1
      · rw [hk0, g0] at hge
        omega
      · rw [hk1, g1] at hge
        omega
    · exact heq
    · have := hlt 2 hgt2
      rw [g2] at this
      omega
  subst hk
  refine ⟨⟨0, 1 * 8, fill⟩, d1, d2, al0, al2, hnew, rfl, rfl, hp1, hd1len, hd1sz, hg1,
    hp2, ?_, ?_, hgrows, ?_⟩
  · rw [hd2len, hd1len]
  · rw [hsz2]
    decide
  · rw [hlog]
    rfl

/-- C12: `darr_new(1, 8)` gives capacity `8` and length `0`; the first `darr_push` of an
element of `8` bytes returns `true` with length `1` and capacity `8`, with no growth step
and no request to the allocator; the second, allocations succeeding, makes exactly two
growth steps (`realloc` for `12` bytes, then for `18`) and returns `true` with length `2`
and capacity `18`. -/
theorem growth_trace_1_8 (w : Nat) (al : Allocator) (e1 e2 : Nat → UInt8)
    (hw : 18 ≤ DARR_SZMAX w) (hal : AllOk al) :
    ∃ (d0 d1 d2 : DARR) (al0 al2 : Allocator),
      darr_new w 1 8 al = (some d0, al0) ∧ d0.len = 0 ∧ d0.sz = 8 ∧
      darr_push w (some d0) 8 e1 al0 = some (true, some d1, al0) ∧
      d1.len = 1 ∧ d1.sz = 8 ∧ darr_push_grows w (some d0) 8 al0 = 0 ∧
      darr_push w (some d1) 8 e2 al0 = some (true, some d2, al2) ∧
      d2.len = 2 ∧ d2.sz = 18 ∧ darr_push_grows w (some d1) 8 al0 = 2 ∧
      al2.log = [Request.realloc 18, Request.realloc 12] ++ al0.log :=
  darr_new_push_push w al e1 e2 hw hal

theorem growth_trace_1_8_witness :
    ∃ (d0 d1 d2 : DARR) (al0 al2 : Allocator),
      darr_new 64 1 8 allocOk = (some d0, al0) ∧ d0.len = 0 ∧ d0.sz = 8 ∧
      darr_push 64 (some d0) 8 (fun _ => 1) al0 = some (true, some d1, al0) ∧
      d1.len = 1 ∧ d1.sz = 8 ∧ darr_push_grows 64 (some d0) 8 al0 = 0 ∧
      darr_push 64 (some d1) 8 (fun _ => 2) al0 = some (true, some d2, al2) ∧
      d2.len = 2 ∧ d2.sz = 18 ∧ darr_push_grows 64 (some d1) 8 al0 = 2 ∧
      al2.log = [Request.realloc 18, Request.realloc 12] ++ al0.log :=
  growth_trace_1_8 64 allocOk (fun _ => 1) (fun _ => 2) (by decide) (fun _ => rfl)

/-! ## `DARR_FULL` and `DARR_AVAILIBLE` -/

/-- A full array has no slot available. -/
theorem arr_full_available (w tsz : Nat) {T : Type} (a : ARR T)
    (h : ARR_FULL w tsz a = true) : ARR_AVAILIBLE w tsz a = 0 := by
  simp only [ARR_FULL, beq_iff_eq] at h
  have hle : (a.len * tsz) % 2 ^ w ≤ a.sz := by rw [h]
  have hsub : a.sz + 2 ^ w - (a.len * tsz) % 2 ^ w = 2 ^ w := by
    rw [h]
    omega
  simp only [ARR_AVAILIBLE, hsub, Nat.mod_self, Nat.zero_div]

/-- C19: on a Dynamic array `DARR_FULL` being false does not say that an element fits:
after `darr_new(1, 8)` and two pushes of `8` bytes that return `true` the length is `2`
and the capacity `18`, `DARR_FULL` is false and `DARR_AVAILIBLE` is `0`; and in every
state of a Dynamic array, `DARR_FULL` true gives `DARR_AVAILIBLE` equal to `0`. -/
theorem darr_full_vs_available (w elsz : Nat) (d : DARR) (hw : 18 ≤ DARR_SZMAX w) :
    (∃ d2 : DARR, DarrReach w 8 d2 ∧ d2.len = 2 ∧ d2.sz = 18 ∧
      DARR_FULL w 8 d2 = false ∧ DARR_AVAILIBLE w 8 d2 = 0) ∧
    (DarrReach w elsz d → DARR_FULL w elsz d = true → DARR_AVAILIBLE w elsz d = 0) := by
  constructor
  · obtain ⟨d0, d1, d2, al0, al2, hnew, _, _, hp1, _, _, _, hp2, hlen, hsz, _, _⟩ :=
      darr_new_push_push w allocOk (fun _ => 0) (fun _ => 0) hw (fun _ => rfl)
    have hreach : DarrReach w 8 d2 :=
      DarrReach.push d1 d2 _ al0 al2 true
        (DarrReach.push d0 d1 _ al0 al0 true (DarrReach.new 1 allocOk al0 d0 hnew) hp1) hp2
    have h16 : (2 * 8) % 2 ^ w = 16 := mod_of_le_szmax (by omega)
    refine ⟨d2, hreach, hlen, hsz, ?_, ?_⟩
    · simp [DARR_FULL, ARR_FULL, hlen, hsz, h16]
    · have hsub : 18 + 2 ^ w - 16 = 2 + 2 ^ w := by omega
      have h2 : 2 % 2 ^ w = 2 := mod_of_le_szmax (by omega)
      simp [DARR_AVAILIBLE, ARR_AVAILIBLE, hlen, hsz, h16, hsub, h2]
  · intro _ hfull
    exact arr_full_available w elsz d hfull

theorem darr_full_vs_available_witness :
    ∃ d : DARR, DarrReach 64 8 d ∧ DARR_FULL 64 8 d = true ∧ DARR_AVAILIBLE 64 8 d = 0 :=
  ⟨(⟨1, 8, fun j => if 0 ≤ j ∧ j < 0 + 8 then 7 else 0⟩ : DARR),
    DarrReach.push ⟨0, 8, fun _ => 0⟩ _ (fun _ => 7) allocOk allocOk true
      (DarrReach.new 1 allocOk
        ((allocOk.after Request.header).after (Request.malloc 8)) _ rfl) rfl,
    by decide,
    (darr_full_vs_available 64 8
      (⟨1, 8, fun j => if 0 ≤ j ∧ j < 0 + 8 then 7 else 0⟩ : DARR) (by decide)).2
      (DarrReach.push ⟨0, 8, fun _ => 0⟩ _ (fun _ => 7) allocOk allocOk true
        (DarrReach.new 1 allocOk
          ((allocOk.after Request.header).after (Request.malloc 8)) _ rfl) rfl)
      (by decide)⟩

/-! ## A push that returns `true` -/

end ArrH
